import Mathlib

/-!
Verification of the WordleBuddy repository's constraint-filtering engine
(`wordle_buddy/utils/word_bank_manager.py`), its legacy variant
(`guessing.py`), and the entropy scoring engine
(`wordle_buddy/utils/word_scorer_entropy.py`, `guessing.py`).

Words are represented as the repository represents them internally: lists of
letter codes (`np.int32` values obtained as `ord(char) - min_value`), i.e.
`List Nat` here.  Feedback symbols are the three strings
`'green'/'yellow'/'gray'` of the source, modelled by the inductive `Color`.
A word bank (`full_word_bank` / `possible_word_bank`) is a list of words, and
every numpy boolean-mask filtering step is a `List.filter`.
-/

/-- Feedback symbol for one letter position: the strings `'green'`,
`'yellow'`, `'gray'` used throughout `word_bank_manager.py`. -/
inductive Color
  | green
  | yellow
  | gray
deriving DecidableEq, Repr

/-- A word: the list of its (normalized) letter codes, as in the numpy
row representation of `WordBankManager`. -/
abbrev Word := List Nat

namespace WordleBuddy

/-! ### The cull filter of `wordle_buddy/utils/word_bank_manager.py` -/

/-- Embeds `WordBankManager._remove_gray` (line 52): keep only words that do
not contain the letter anywhere. -/
def removeGray (bank : List Word) (c : Nat) : List Word :=
  bank.filter (fun w => !(w.contains c))

/-- Embeds `WordBankManager._remove_green` (line 57): keep only words with
letter `c` exactly at column `idx`. -/
def removeGreen (bank : List Word) (idx : Nat) (c : Nat) : List Word :=
  bank.filter (fun w => w.getD idx 0 == c)

/-- Column scan behind `_remove_yellow`'s
`np.any(np.delete(bank, confirmed_indices, axis=1) == letter, axis=1)`:
does `w` contain letter `c` at some column outside `excl`? -/
def containsOutside (w : Word) (c : Nat) (excl : List Nat) : Bool :=
  (List.range w.length).any (fun j => !(excl.contains j) && (w.getD j 0 == c))

/-- Embeds `WordBankManager._remove_yellow` (line 62): the word must contain
the letter in a column not listed in `confirmed` (green-pinned columns are
deleted before the scan) and must not have it at column `idx`. -/
def removeYellow (bank : List Word) (idx : Nat) (c : Nat) (confirmed : List Nat) :
    List Word :=
  bank.filter (fun w => containsOutside w c confirmed && !(w.getD idx 0 == c))

/-- Embeds `WordBankManager._filter_by_letter_count` (line 71): keep words
whose occurrence count of `c` lies in `[minC, maxC]`. -/
def filterByLetterCount (bank : List Word) (c : Nat) (minC maxC : Nat) : List Word :=
  bank.filter (fun w => decide (minC ≤ w.count c ∧ w.count c ≤ maxC))

/-- Embeds `WordBankManager._regular_removal` (line 76), the single-occurrence
dispatch on the feedback colour. -/
def regularRemoval (bank : List Word) (c idx : Nat) (fb : Color) : List Word :=
  match fb with
  | .gray => removeGray bank c
  | .green => removeGreen bank idx c
  | .yellow => removeYellow bank idx c []

/-- The distinct letters of the guess in ascending code order, exactly the
iteration order of `_find_duplicates` (line 46), which enumerates
`np.bincount(word)` and keeps the codes with positive count. -/
def lettersAsc (g : Word) : List Nat :=
  (List.range (g.foldr Nat.max 0 + 1)).filter (fun c => g.contains c)

/-- The column indices at which the guess carries letter `c`
(`indices_dict` of `cull`, line 98). -/
def positionsOf (g : Word) (c : Nat) : List Nat :=
  (List.range g.length).filter (fun i => g.getD i 0 == c)

/-- The feedback symbols carried by the occurrences of letter `c` in the
guess: `feedback = [information[i] for i in indices]` of `cull`, line 102. -/
def marksOf (g : Word) (info : List Color) (c : Nat) : List Color :=
  (positionsOf g c).map (fun i => info.getD i Color.gray)

/-- Occurrence positions of `c` marked green (`green_indices`, line 116). -/
def greenIdxsOf (g : Word) (info : List Color) (c : Nat) : List Nat :=
  (positionsOf g c).filter (fun i => info.getD i Color.gray == Color.green)

/-- Occurrence positions of `c` marked yellow (`yellow_indices`, line 117). -/
def yellowIdxsOf (g : Word) (info : List Color) (c : Nat) : List Nat :=
  (positionsOf g c).filter (fun i => info.getD i Color.gray == Color.yellow)

/-- The `max_count` of `cull` lines 110-112: the guess length unless some
occurrence is gray, in which case the number of non-gray marks. -/
def maxCountOf (g : Word) (info : List Color) (c : Nat) : Nat :=
  if (marksOf g info c).contains Color.gray then
    (marksOf g info c).length - (marksOf g info c).count Color.gray
  else g.length

/-- The `min_count` of `cull` line 113: yellow marks plus green marks. -/
def minCountOf (g : Word) (info : List Color) (c : Nat) : Nat :=
  (marksOf g info c).count Color.yellow + (marksOf g info c).count Color.green

/-- Embeds one iteration of the `for letter, count in occurrences.items()`
loop of `WordBankManager.cull` (lines 100-124): single-occurrence letters use
`_regular_removal`; repeated letters get the count-window filter followed by
the per-position green and yellow removals. -/
def processLetter (bank : List Word) (g : Word) (info : List Color) (c : Nat) :
    List Word :=
  let indices := positionsOf g c
  if indices.length == 1 then
    regularRemoval bank c (indices.headD 0) ((marksOf g info c).headD Color.gray)
  else
    let bank1 := filterByLetterCount bank c (minCountOf g info c) (maxCountOf g info c)
    let bank2 := (greenIdxsOf g info c).foldl (fun b i => removeGreen b i c) bank1
    (yellowIdxsOf g info c).foldl
      (fun b i => removeYellow b i c (greenIdxsOf g info c)) bank2

/-- The letter loop of `cull`, including the early
`if len(self.possible_word_bank) == 0: return` exit (line 104). -/
def cullLoop (g : Word) (info : List Color) : List Nat → List Word → List Word
  | [], bank => bank
  | c :: rest, bank =>
    if bank.isEmpty then bank
    else cullLoop g info rest (processLetter bank g info c)

/-- Embeds `WordBankManager.cull` (lines 90-124). -/
def cull (bank : List Word) (g : Word) (info : List Color) : List Word :=
  cullLoop g info (lettersAsc g) bank

/-- Embeds `WordBankManager.reset` together with game play: the state of
`possible_word_bank` is reached from the full bank by a sequence of `cull`
and `reset` calls. -/
inductive Op
  | cullOp (g : Word) (info : List Color)
  | resetOp

/-- Runs a sequence of operations on the possible word bank, starting from
`bank`; `reset` restores the full bank (`word_bank_manager.py`, line 134). -/
def runOps (full : List Word) : List Op → List Word → List Word
  | [], bank => bank
  | .cullOp g info :: rest, bank => runOps full rest (cull bank g info)
  | .resetOp :: rest, _ => runOps full rest full

/-- The possible word bank after a whole game: `__init__` copies the full
bank, then the operations run. -/
def runGame (full : List Word) (ops : List Op) : List Word :=
  runOps full ops full

end WordleBuddy

namespace Oracle

/-!
Modelled from the spec: the "Feedback source" collaborator of §6 is not part
of the repository's sources; the spec defines it as the standard two-pass
rule.  Pass 1 marks exact-position matches Correct and removes them from a
per-letter remaining-count pool seeded from the secret word; pass 2 walks the
remaining guessed letters left to right and marks each Present if the pool
still has that letter (decrementing it), else Absent.
-/

/-- Pool of pass 1: for each letter, how many copies the secret word has left
after the exact-position matches are removed. -/
def pool0 (s g : Word) (c : Nat) : Nat :=
  s.count c - (s.zip g).countP (fun p => p.1 == p.2 && p.2 == c)

/-- Pass 2 of the oracle over the zipped (secret letter, guessed letter)
pairs, threading the remaining-count pool. -/
def pass2 (pool : Nat → Nat) : List (Nat × Nat) → List Color
  | [] => []
  | (si, gi) :: rest =>
    if si == gi then Color.green :: pass2 pool rest
    else if 0 < pool gi then
      Color.yellow :: pass2 (fun c => if c == gi then pool gi - 1 else pool c) rest
    else Color.gray :: pass2 pool rest

/-- The two-pass feedback oracle: feedback of guessing `g` against secret
word `s`. -/
def oracle (s g : Word) : List Color :=
  pass2 (pool0 s g) (s.zip g)

end Oracle

/-! ### Generic counting helpers -/

namespace ListFacts

theorem countP_split (l : List α) (p q : α → Bool) :
    l.countP p
      = l.countP (fun a => p a && q a) + l.countP (fun a => p a && !q a) := by
  induction l with
  | nil => rfl
  | cons a l ih =>
    simp only [List.countP_cons, ih]
    cases hp : p a <;> cases hq : q a <;> simp [hp, hq] <;> omega

theorem rangeIdx_countP (l : List α) (p : α → Bool) (d : α) :
    (List.range l.length).countP (fun i => p (l.getD i d)) = l.countP p := by
  induction l with
  | nil => simp
  | cons a l ih =>
    rw [List.length_cons, List.range_succ_eq_map, List.countP_cons,
      List.countP_map]
    have hcomp : ((fun i => p ((a :: l).getD i d)) ∘ Nat.succ)
        = fun i => p (l.getD i d) := by
      funext i; simp
    rw [hcomp, ih]
    simp [List.countP_cons]

theorem range2zip_countP (xs : List α) (ys : List β) (P : α → β → Bool)
    (da : α) (db : β) (h : xs.length = ys.length) :
    (List.range xs.length).countP (fun i => P (xs.getD i da) (ys.getD i db))
      = (xs.zip ys).countP (fun p => P p.1 p.2) := by
  induction xs generalizing ys with
  | nil => simp
  | cons a xs ih =>
    cases ys with
    | nil => simp at h
    | cons b ys =>
      rw [List.zip_cons_cons, List.countP_cons, List.length_cons,
        List.range_succ_eq_map, List.countP_cons, List.countP_map]
      have hcomp : ((fun i => P ((a :: xs).getD i da) ((b :: ys).getD i db))
          ∘ Nat.succ) = fun i => P (xs.getD i da) (ys.getD i db) := by
        funext i; simp
      rw [hcomp, ih ys (by simpa using h)]
      simp

/-- Lists of feedback colours partition into the three colour counts. -/
theorem color_count_partition (l : List Color) :
    l.length
      = l.count Color.green + l.count Color.yellow + l.count Color.gray := by
  induction l with
  | nil => rfl
  | cons a l ih =>
    cases a <;> simp [List.count_cons, ih] <;> omega

theorem foldl_mem_of_kept {s : α} {f : List α → β → List α} {L : List β}
    {b0 : List α}
    (hf : ∀ x ∈ L, ∀ b, s ∈ b → s ∈ f b x) (hb : s ∈ b0) :
    s ∈ L.foldl f b0 := by
  induction L generalizing b0 with
  | nil => exact hb
  | cons x L ih =>
    exact ih (fun y hy => hf y (List.mem_cons_of_mem _ hy))
      (hf x (List.mem_cons_self _ _) b0 hb)

end ListFacts

/-! ### Properties of the two-pass oracle -/

namespace Oracle

theorem pass2_length (pool : Nat → Nat) (pairs : List (Nat × Nat)) :
    (pass2 pool pairs).length = pairs.length := by
  induction pairs generalizing pool with
  | nil => rfl
  | cons x rest ih =>
    obtain ⟨a, b⟩ := x
    simp only [pass2]
    split
    · simpa using ih pool
    · split <;> simp [ih]

theorem pass2_getElem?_green (pool : Nat → Nat) (pairs : List (Nat × Nat))
    (i : Nat) (a b : Nat) (hp : pairs[i]? = some (a, b)) :
    ((pass2 pool pairs)[i]? = some Color.green ↔ a = b) := by
  induction pairs generalizing pool i with
  | nil => simp at hp
  | cons x rest ih =>
    obtain ⟨x1, x2⟩ := x
    cases i with
    | zero =>
      simp only [List.getElem?_cons_zero, Option.some.injEq,
        Prod.mk.injEq] at hp
      obtain ⟨h1, h2⟩ := hp
      rw [← h1, ← h2]
      by_cases hab : x1 = x2
      · simp [pass2, hab]
      · simp only [pass2, beq_iff_eq, hab, if_false]
        split <;> simp [hab]
    | succ i =>
      simp only [List.getElem?_cons_succ] at hp
      by_cases hab : x1 = x2
      · simpa [pass2, hab] using ih pool i hp
      · simp only [pass2, beq_iff_eq, hab, if_false]
        split <;> simpa using ih _ i hp

theorem pass2_getElem?_yellow (pool : Nat → Nat) (pairs : List (Nat × Nat))
    (i : Nat) (a b : Nat) (hp : pairs[i]? = some (a, b))
    (hy : (pass2 pool pairs)[i]? = some Color.yellow) :
    a ≠ b ∧ 0 < pool b := by
  induction pairs generalizing pool i with
  | nil => simp at hp
  | cons x rest ih =>
    obtain ⟨x1, x2⟩ := x
    cases i with
    | zero =>
      simp only [List.getElem?_cons_zero, Option.some.injEq,
        Prod.mk.injEq] at hp
      obtain ⟨h1, h2⟩ := hp
      subst h1; subst h2
      by_cases hab : x1 = x2
      · simp [pass2, hab] at hy
      · simp only [pass2, beq_iff_eq, hab, if_false] at hy
        split at hy
        · exact ⟨hab, by assumption⟩
        · simp at hy
    | succ i =>
      simp only [List.getElem?_cons_succ] at hp
      by_cases hab : x1 = x2
      · simp only [pass2, beq_iff_eq, hab, if_true,
          List.getElem?_cons_succ] at hy
        exact ih pool i hp hy
      · simp only [pass2, beq_iff_eq, hab, if_false] at hy
        split at hy
        · simp only [List.getElem?_cons_succ] at hy
          obtain ⟨hne, hpos⟩ := ih _ i hp hy
          refine ⟨hne, ?_⟩
          by_cases hbx : b = x2
          · subst hbx
            simp at hpos
            omega
          · simp [hbx] at hpos
            exact hpos
        · simp only [List.getElem?_cons_succ] at hy
          exact ih pool i hp hy

theorem pass2_green_count (pool : Nat → Nat) (pairs : List (Nat × Nat))
    (c : Nat) :
    (pairs.zip (pass2 pool pairs)).countP
        (fun q => q.1.2 == c && q.2 == Color.green)
      = pairs.countP (fun p => p.2 == c && p.1 == p.2) := by
  induction pairs generalizing pool with
  | nil => rfl
  | cons x rest ih =>
    obtain ⟨a, b⟩ := x
    by_cases hab : a = b
    · subst hab
      have hm : pass2 pool ((a, a) :: rest) = Color.green :: pass2 pool rest := by
        simp [pass2]
      rw [hm, List.zip_cons_cons, List.countP_cons, List.countP_cons, ih pool]
      by_cases hac : a = c <;> simp [hac]
    · have hab' : (a == b) = false := by simp [hab]
      by_cases hpool : 0 < pool b
      · have hm : pass2 pool ((a, b) :: rest)
            = Color.yellow ::
              pass2 (fun d => if d == b then pool b - 1 else pool d) rest := by
          simp [pass2, hab', hpool]
        rw [hm, List.zip_cons_cons, List.countP_cons, List.countP_cons, ih]
        simp [hab']
      · have hm : pass2 pool ((a, b) :: rest)
            = Color.gray :: pass2 pool rest := by
          simp [pass2, hab', hpool]
        rw [hm, List.zip_cons_cons, List.countP_cons, List.countP_cons, ih pool]
        simp [hab']

theorem pass2_yellow_count (pool : Nat → Nat) (pairs : List (Nat × Nat))
    (c : Nat) :
    (pairs.zip (pass2 pool pairs)).countP
        (fun q => q.1.2 == c && q.2 == Color.yellow)
      = min (pairs.countP (fun p => p.2 == c && !(p.1 == p.2))) (pool c) := by
  induction pairs generalizing pool with
  | nil => simp
  | cons x rest ih =>
    obtain ⟨a, b⟩ := x
    by_cases hab : a = b
    · subst hab
      have hm : pass2 pool ((a, a) :: rest) = Color.green :: pass2 pool rest := by
        simp [pass2]
      rw [hm, List.zip_cons_cons, List.countP_cons, List.countP_cons, ih pool]
      simp
    · have hab' : (a == b) = false := by simp [hab]
      by_cases hpool : 0 < pool b
      · have hm : pass2 pool ((a, b) :: rest)
            = Color.yellow ::
              pass2 (fun d => if d == b then pool b - 1 else pool d) rest := by
          simp [pass2, hab', hpool]
        rw [hm, List.zip_cons_cons, List.countP_cons, List.countP_cons, ih]
        by_cases hbc : b = c
        · subst hbc
          simp [hab']
          omega
        · have hbc' : (b == c) = false := by simp [hbc]
          have hcb' : (c == b) = false := by
            simp only [beq_eq_false_iff_ne, ne_eq]
            exact fun h => hbc h.symm
          simp [hbc', hcb']
      · have hm : pass2 pool ((a, b) :: rest)
            = Color.gray :: pass2 pool rest := by
          simp [pass2, hab', hpool]
        rw [hm, List.zip_cons_cons, List.countP_cons, List.countP_cons, ih pool]
        by_cases hbc : b = c
        · subst hbc
          have hb0 : pool b = 0 := by omega
          simp [hab', hb0]
        · have hbc' : (b == c) = false := by simp [hbc]
          simp [hbc']

/-! ### Word-level facts about the oracle -/

theorem length_oracle (s g : Word) (h : s.length = g.length) :
    (oracle s g).length = g.length := by
  rw [oracle, pass2_length, List.length_zip, h, Nat.min_self]

theorem zip_getElem?_at (s g : Word) (h : s.length = g.length) (i : Nat)
    (hi : i < g.length) :
    (s.zip g)[i]? = some (s.getD i 0, g.getD i 0) := by
  have his : i < s.length := by omega
  refine List.getElem?_zip_eq_some.mpr ⟨?_, ?_⟩
  · rw [List.getElem?_eq_getElem his]
    simp [List.getD_eq_getElem?_getD, List.getElem?_eq_getElem his]
  · rw [List.getElem?_eq_getElem hi]
    simp [List.getD_eq_getElem?_getD, List.getElem?_eq_getElem hi]

theorem getD_eq_iff_getElem? {l : List α} {i : Nat} {d x : α}
    (hi : i < l.length) : l.getD i d = x ↔ l[i]? = some x := by
  rw [List.getD_eq_getElem?_getD, List.getElem?_eq_getElem hi]
  simp

theorem oracle_green_iff (s g : Word) (h : s.length = g.length) (i : Nat)
    (hi : i < g.length) :
    ((oracle s g).getD i Color.gray = Color.green
      ↔ s.getD i 0 = g.getD i 0) := by
  have hio : i < (oracle s g).length := by rw [length_oracle s g h]; exact hi
  rw [getD_eq_iff_getElem? hio]
  exact pass2_getElem?_green (pool0 s g) (s.zip g) i _ _ (zip_getElem?_at s g h i hi)

theorem oracle_yellow_facts (s g : Word) (h : s.length = g.length) (i : Nat)
    (hi : i < g.length)
    (hy : (oracle s g).getD i Color.gray = Color.yellow) :
    s.getD i 0 ≠ g.getD i 0 ∧ 0 < pool0 s g (g.getD i 0) := by
  have hio : i < (oracle s g).length := by rw [length_oracle s g h]; exact hi
  rw [getD_eq_iff_getElem? hio] at hy
  exact pass2_getElem?_yellow (pool0 s g) (s.zip g) i _ _
    (zip_getElem?_at s g h i hi) hy

/-- Count of marks of colour `m` carried by occurrences of letter `c` of the
guess, as a count over `g.zip (oracle s g)`, rephrased over positions. -/
theorem zip_marks_count_range (s g : Word) (h : s.length = g.length)
    (c : Nat) (m : Color) :
    (g.zip (oracle s g)).countP (fun p => p.1 == c && p.2 == m)
      = (List.range g.length).countP
          (fun i => (g.getD i 0 == c) && ((oracle s g).getD i Color.gray == m)) := by
  rw [← ListFacts.range2zip_countP g (oracle s g)
    (fun a b => a == c && b == m) 0 Color.gray (length_oracle s g h).symm]

/-- The joint green+yellow mark count of a letter equals the number of
copies of it the secret can account for. -/
theorem oracle_green_yellow_count (s g : Word) (h : s.length = g.length)
    (c : Nat) :
    (g.zip (oracle s g)).countP (fun p => p.1 == c && p.2 == Color.green)
      + (g.zip (oracle s g)).countP (fun p => p.1 == c && p.2 == Color.yellow)
      = min (g.count c) (s.count c) := by
  have hlenz : (s.zip g).length = g.length := by
    rw [List.length_zip, h, Nat.min_self]
  have hmlen : (oracle s g).length = g.length := length_oracle s g h
  -- translate marks counted against g into marks counted against s.zip g
  have key : ∀ m : Color,
      (g.zip (oracle s g)).countP (fun p => p.1 == c && p.2 == m)
        = ((s.zip g).zip (oracle s g)).countP
            (fun q => q.1.2 == c && q.2 == m) := by
    intro m
    rw [zip_marks_count_range s g h c m]
    rw [← ListFacts.range2zip_countP (s.zip g) (oracle s g)
      (fun a b => a.2 == c && b == m) (0, 0) Color.gray (by rw [hlenz, hmlen])]
    rw [hlenz]
    refine List.countP_congr ?_
    intro i hi
    have hik : i < g.length := List.mem_range.mp hi
    have hp := zip_getElem?_at s g h i hik
    have : (s.zip g).getD i (0, 0) = (s.getD i 0, g.getD i 0) := by
      rw [List.getD_eq_getElem?_getD, hp]
      rfl
    rw [this]
  rw [key Color.green, key Color.yellow, oracle,
    pass2_green_count (pool0 s g) (s.zip g) c,
    pass2_yellow_count (pool0 s g) (s.zip g) c]
  -- arithmetic over the letter counts
  have hgcount : (s.zip g).countP (fun p => p.2 == c) = g.count c := by
    rw [← ListFacts.range2zip_countP s g (fun _ b => b == c) 0 0 h, h,
      ListFacts.rangeIdx_countP g (fun b => b == c) 0, List.count_eq_countP]
  have hscount : (s.zip g).countP (fun p => p.1 == c) = s.count c := by
    rw [← ListFacts.range2zip_countP s g (fun a _ => a == c) 0 0 h,
      ListFacts.rangeIdx_countP s (fun a => a == c) 0, List.count_eq_countP]
  have hsplit := ListFacts.countP_split (s.zip g)
    (fun p => p.2 == c) (fun p => p.1 == p.2)
  have hmono : (s.zip g).countP (fun p => p.2 == c && p.1 == p.2)
      ≤ (s.zip g).countP (fun p => p.1 == c) := by
    refine List.countP_mono_left ?_
    intro x hx hpred
    simp only [Bool.and_eq_true, beq_iff_eq] at hpred ⊢
    rw [hpred.2, hpred.1]
  have hpool : pool0 s g c
      = s.count c - (s.zip g).countP (fun p => p.2 == c && p.1 == p.2) := by
    rw [pool0]
    congr 1
    refine List.countP_congr ?_
    intro x hx
    simp only [Bool.and_eq_true, beq_iff_eq]
    constructor
    · rintro ⟨h1, h2⟩; exact ⟨h2, h1⟩
    · rintro ⟨h1, h2⟩; exact ⟨h2, h1⟩
  rw [hpool]
  rw [hgcount] at hsplit
  rw [hscount] at hmono
  omega

end Oracle


/-! ### Membership characterization of the filters -/

namespace WordleBuddy

theorem mem_positionsOf {g : Word} {c i : Nat} :
    i ∈ positionsOf g c ↔ i < g.length ∧ g.getD i 0 = c := by
  simp [positionsOf, List.mem_filter, List.mem_range]

theorem length_positionsOf (g : Word) (c : Nat) :
    (positionsOf g c).length = g.count c := by
  rw [positionsOf, ← List.countP_eq_length_filter,
    ListFacts.rangeIdx_countP g (fun b => b == c) 0, List.count_eq_countP]

theorem marksOf_count (g : Word) (info : List Color) (c : Nat) (m : Color) :
    (marksOf g info c).count m
      = (positionsOf g c).countP (fun i => info.getD i Color.gray == m) := by
  rw [marksOf, List.count_eq_countP, List.countP_map]
  rfl

theorem length_marksOf (g : Word) (info : List Color) (c : Nat) :
    (marksOf g info c).length = g.count c := by
  rw [marksOf, List.length_map, length_positionsOf]

theorem length_greenIdxsOf (g : Word) (info : List Color) (c : Nat) :
    (greenIdxsOf g info c).length = (marksOf g info c).count Color.green := by
  rw [greenIdxsOf, ← List.countP_eq_length_filter, marksOf_count]

theorem marksOf_count_zip (s g : Word) (hlen : s.length = g.length) (c : Nat)
    (m : Color) :
    (marksOf g (Oracle.oracle s g) c).count m
      = (g.zip (Oracle.oracle s g)).countP (fun p => p.1 == c && p.2 == m) := by
  rw [marksOf_count, Oracle.zip_marks_count_range s g hlen c m, positionsOf,
    List.countP_filter]
  refine List.countP_congr ?_
  intro i _
  constructor
  · intro hx
    simp only [Bool.and_eq_true] at hx ⊢
    exact ⟨hx.2, hx.1⟩
  · intro hx
    simp only [Bool.and_eq_true] at hx ⊢
    exact ⟨hx.2, hx.1⟩

theorem marks_green_yellow (s g : Word) (hlen : s.length = g.length) (c : Nat) :
    (marksOf g (Oracle.oracle s g) c).count Color.green
      + (marksOf g (Oracle.oracle s g) c).count Color.yellow
      = min (g.count c) (s.count c) := by
  rw [marksOf_count_zip s g hlen c Color.green,
    marksOf_count_zip s g hlen c Color.yellow]
  exact Oracle.oracle_green_yellow_count s g hlen c

theorem mem_removeGray {bank : List Word} {c : Nat} {w : Word} :
    w ∈ removeGray bank c ↔ w ∈ bank ∧ c ∉ w := by
  simp [removeGray, List.mem_filter, List.contains]

theorem mem_removeGreen {bank : List Word} {idx c : Nat} {w : Word} :
    w ∈ removeGreen bank idx c ↔ w ∈ bank ∧ w.getD idx 0 = c := by
  simp [removeGreen, List.mem_filter]

theorem mem_removeYellow {bank : List Word} {idx c : Nat}
    {confirmed : List Nat} {w : Word} :
    w ∈ removeYellow bank idx c confirmed
      ↔ w ∈ bank ∧ containsOutside w c confirmed = true ∧ w.getD idx 0 ≠ c := by
  simp [removeYellow, List.mem_filter]

theorem mem_filterByLetterCount {bank : List Word} {c minC maxC : Nat}
    {w : Word} :
    w ∈ filterByLetterCount bank c minC maxC
      ↔ w ∈ bank ∧ minC ≤ w.count c ∧ w.count c ≤ maxC := by
  simp [filterByLetterCount, List.mem_filter]

theorem mem_foldl_removeGreen (L : List Nat) (c : Nat) (bank : List Word)
    (w : Word) :
    w ∈ L.foldl (fun b i => removeGreen b i c) bank
      ↔ w ∈ bank ∧ ∀ i ∈ L, w.getD i 0 = c := by
  induction L generalizing bank with
  | nil => simp
  | cons x L ih =>
    rw [List.foldl_cons, ih, mem_removeGreen]
    constructor
    · rintro ⟨⟨h1, h2⟩, h3⟩
      refine ⟨h1, ?_⟩
      intro i hi
      rcases List.mem_cons.mp hi with hi | hi
      · rw [hi]; exact h2
      · exact h3 i hi
    · rintro ⟨h1, h2⟩
      exact ⟨⟨h1, h2 x (List.mem_cons_self _ _)⟩,
        fun i hi => h2 i (List.mem_cons_of_mem _ hi)⟩

theorem mem_foldl_removeYellow (L : List Nat) (c : Nat)
    (confirmed : List Nat) (bank : List Word) (w : Word) :
    w ∈ L.foldl (fun b i => removeYellow b i c confirmed) bank
      ↔ w ∈ bank
        ∧ ∀ i ∈ L, containsOutside w c confirmed = true ∧ w.getD i 0 ≠ c := by
  induction L generalizing bank with
  | nil => simp
  | cons x L ih =>
    rw [List.foldl_cons, ih, mem_removeYellow]
    constructor
    · rintro ⟨⟨h1, h2, h3⟩, h4⟩
      refine ⟨h1, ?_⟩
      intro i hi
      rcases List.mem_cons.mp hi with hi | hi
      · rw [hi]; exact ⟨h2, h3⟩
      · exact h4 i hi
    · rintro ⟨h1, h2⟩
      refine ⟨⟨h1, (h2 x (List.mem_cons_self _ _)).1,
        (h2 x (List.mem_cons_self _ _)).2⟩,
        fun i hi => h2 i (List.mem_cons_of_mem _ hi)⟩

theorem mem_processLetter_multi {bank : List Word} {g : Word}
    {info : List Color} {c : Nat} {w : Word}
    (hne : (positionsOf g c).length ≠ 1) :
    w ∈ processLetter bank g info c
      ↔ w ∈ bank
        ∧ (minCountOf g info c ≤ w.count c ∧ w.count c ≤ maxCountOf g info c)
        ∧ (∀ i ∈ greenIdxsOf g info c, w.getD i 0 = c)
        ∧ (∀ i ∈ yellowIdxsOf g info c,
            containsOutside w c (greenIdxsOf g info c) = true
              ∧ w.getD i 0 ≠ c) := by
  rw [processLetter]
  rw [if_neg (by simpa using hne)]
  rw [mem_foldl_removeYellow, mem_foldl_removeGreen, mem_filterByLetterCount]
  tauto

/-- If a word has more copies of a letter than a list of excluded columns
could possibly cover, then it has the letter in some non-excluded column. -/
theorem containsOutside_of_count (s : Word) (c : Nat) (L : List Nat)
    (h : L.length < s.count c) :
    containsOutside s c L = true := by
  have hcount : s.count c
      = (List.range s.length).countP (fun j => s.getD j 0 == c) := by
    rw [List.count_eq_countP, ListFacts.rangeIdx_countP s (fun b => b == c) 0]
  have hsplit := ListFacts.countP_split (List.range s.length)
    (fun j => s.getD j 0 == c) (fun j => L.contains j)
  have hfirst : (List.range s.length).countP
      (fun j => (s.getD j 0 == c) && L.contains j) ≤ L.length := by
    have hmono : (List.range s.length).countP
        (fun j => (s.getD j 0 == c) && L.contains j)
        ≤ (List.range s.length).countP (fun j => L.contains j) := by
      refine List.countP_mono_left ?_
      intro x _ hx
      exact (Bool.and_eq_true _ _ ▸ hx).2
    refine le_trans hmono ?_
    rw [List.countP_eq_length_filter]
    have hnd : ((List.range s.length).filter (fun j => L.contains j)).Nodup :=
      (List.nodup_range _).filter _
    have hsub : ((List.range s.length).filter (fun j => L.contains j)) ⊆ L := by
      intro x hx
      have := (List.mem_filter.mp hx).2
      simpa [List.contains] using this
    exact (List.subperm_of_subset hnd hsub).length_le
  have hsecond : 0 < (List.range s.length).countP
      (fun j => (s.getD j 0 == c) && !(L.contains j)) := by omega
  obtain ⟨j, hj, hpred⟩ := List.countP_pos_iff.mp hsecond
  rw [containsOutside, List.any_eq_true]
  refine ⟨j, hj, ?_⟩
  simp only [Bool.and_eq_true] at hpred ⊢
  exact ⟨hpred.2, hpred.1⟩

end WordleBuddy

/-! ### Soundness of the constraint filter -/

namespace WordleBuddy

/-- A secret word survives the processing of any single letter of a guess
when the feedback comes from the two-pass oracle evaluated against it. -/
theorem processLetter_keeps_secret (bank : List Word) (s g : Word) (c : Nat)
    (hs : s ∈ bank) (hlen : s.length = g.length) :
    s ∈ processLetter bank g (Oracle.oracle s g) c := by
  have hmy := marks_green_yellow s g hlen c
  by_cases h1 : (positionsOf g c).length = 1
  · obtain ⟨i, hI⟩ := List.length_eq_one.mp h1
    have hiI : i ∈ positionsOf g c := by rw [hI]; exact List.mem_cons_self _ _
    obtain ⟨hilt, higc⟩ := mem_positionsOf.mp hiI
    have hk1 : g.count c = 1 := by rw [← length_positionsOf, h1]
    have hmarks : marksOf g (Oracle.oracle s g) c
        = [(Oracle.oracle s g).getD i Color.gray] := by
      rw [marksOf, hI]; rfl
    rw [processLetter]
    rw [if_pos (by simp [h1])]
    rw [hI, hmarks]
    simp only [List.headD_cons]
    cases hm : (Oracle.oracle s g).getD i Color.gray with
    | green =>
      rw [regularRemoval]
      have hval := (Oracle.oracle_green_iff s g hlen i hilt).mp hm
      exact mem_removeGreen.mpr ⟨hs, by rw [hval, higc]⟩
    | yellow =>
      rw [regularRemoval]
      obtain ⟨hne, hpool⟩ := Oracle.oracle_yellow_facts s g hlen i hilt hm
      refine mem_removeYellow.mpr ⟨hs, ?_, ?_⟩
      · refine containsOutside_of_count s c [] ?_
        have hple : Oracle.pool0 s g (g.getD i 0) ≤ s.count (g.getD i 0) :=
          Nat.sub_le _ _
        rw [higc] at hpool hple
        simpa using lt_of_lt_of_le hpool hple
      · rw [higc] at hne; exact hne
    | gray =>
      rw [regularRemoval]
      refine mem_removeGray.mpr ⟨hs, ?_⟩
      rw [hmarks, hm] at hmy
      have hzero : (0 : Nat) = min (g.count c) (s.count c) := by
        simpa using hmy
      refine List.count_eq_zero.mp ?_
      omega
  · refine (mem_processLetter_multi h1).mpr ⟨hs, ?_, ?_, ?_⟩
    · -- the count window [min_count, max_count] is sound
      have htri := ListFacts.color_count_partition (marksOf g (Oracle.oracle s g) c)
      have hlm := length_marksOf g (Oracle.oracle s g) c
      constructor
      · rw [minCountOf]
        omega
      · rw [maxCountOf]
        by_cases hgr : (marksOf g (Oracle.oracle s g) c).contains Color.gray
        · rw [if_pos hgr]
          have hmem : Color.gray ∈ marksOf g (Oracle.oracle s g) c := by
            simpa [List.contains] using hgr
          have hdpos : 0 < (marksOf g (Oracle.oracle s g) c).count Color.gray :=
            List.count_pos_iff.mpr hmem
          omega
        · rw [if_neg hgr]
          calc s.count c ≤ s.length := List.count_le_length c s
            _ = g.length := hlen
    · intro i hi
      obtain ⟨hiI, hgreen⟩ := List.mem_filter.mp hi
      obtain ⟨hilt, higc⟩ := mem_positionsOf.mp hiI
      have hgreen' : (Oracle.oracle s g).getD i Color.gray = Color.green := by
        simpa using hgreen
      have hval := (Oracle.oracle_green_iff s g hlen i hilt).mp hgreen'
      rw [hval, higc]
    · intro i hi
      obtain ⟨hiI, hyellow⟩ := List.mem_filter.mp hi
      obtain ⟨hilt, higc⟩ := mem_positionsOf.mp hiI
      have hyellow' : (Oracle.oracle s g).getD i Color.gray = Color.yellow := by
        simpa using hyellow
      obtain ⟨hne, _⟩ := Oracle.oracle_yellow_facts s g hlen i hilt hyellow'
      constructor
      · refine containsOutside_of_count s c (greenIdxsOf g (Oracle.oracle s g) c) ?_
        rw [length_greenIdxsOf]
        have hymem : Color.yellow ∈ marksOf g (Oracle.oracle s g) c :=
          List.mem_map.mpr ⟨i, hiI, by rw [hyellow']⟩
        have hypos : 0 < (marksOf g (Oracle.oracle s g) c).count Color.yellow :=
          List.count_pos_iff.mpr hymem
        omega
      · rw [higc] at hne; exact hne

/-- A secret word survives the whole letter loop of `cull`. -/
theorem cullLoop_keeps_secret (s g : Word) (letters : List Nat)
    (bank : List Word) (hs : s ∈ bank) (hlen : s.length = g.length) :
    s ∈ cullLoop g (Oracle.oracle s g) letters bank := by
  induction letters generalizing bank with
  | nil => exact hs
  | cons c rest ih =>
    rw [cullLoop]
    rw [if_neg (by simp [List.isEmpty_iff]; exact List.ne_nil_of_mem hs)]
    exact ih _ (processLetter_keeps_secret bank s g c hs hlen)

end WordleBuddy

/-! ### Shrinking: every filtering step yields a sublist -/

namespace WordleBuddy

theorem foldl_sublist {f : List Word → Nat → List Word}
    (hf : ∀ b x, List.Sublist (f b x) b) (L : List Nat) (b : List Word) :
    List.Sublist (L.foldl f b) b := by
  induction L generalizing b with
  | nil => exact List.Sublist.refl b
  | cons x L ih => exact (ih (f b x)).trans (hf b x)

theorem regularRemoval_sublist (bank : List Word) (c idx : Nat) (fb : Color) :
    List.Sublist (regularRemoval bank c idx fb) bank := by
  cases fb <;>
    simp only [regularRemoval, removeGray, removeGreen, removeYellow] <;>
    exact List.filter_sublist _

theorem processLetter_sublist (bank : List Word) (g : Word)
    (info : List Color) (c : Nat) :
    List.Sublist (processLetter bank g info c) bank := by
  rw [processLetter]
  split
  · exact regularRemoval_sublist _ _ _ _
  · refine ((foldl_sublist (fun b x => List.filter_sublist b) _ _).trans
      ((foldl_sublist (fun b x => List.filter_sublist b) _ _).trans ?_))
    exact List.filter_sublist _

theorem cull_sublist (bank : List Word) (g : Word) (info : List Color) :
    List.Sublist (cull bank g info) bank := by
  rw [cull]
  generalize lettersAsc g = letters
  induction letters generalizing bank with
  | nil => exact List.Sublist.refl bank
  | cons c rest ih =>
    rw [cullLoop]
    split
    · exact List.Sublist.refl bank
    · exact (ih (processLetter bank g info c)).trans
        (processLetter_sublist bank g info c)

theorem runOps_sublist (full : List Word) (ops : List Op) (bank : List Word)
    (hb : List.Sublist bank full) : List.Sublist (runOps full ops bank) full := by
  induction ops generalizing bank with
  | nil => exact hb
  | cons op rest ih =>
    cases op with
    | cullOp g info => exact ih _ ((cull_sublist bank g info).trans hb)
    | resetOp => exact ih full (List.Sublist.refl full)

end WordleBuddy

/-! ### Claim-side reformulation of the repeated-letter rule (spec §4.1) -/

namespace SpecSide

/-- Spec §4.1 step 3, written from the spec text: for a letter occurring
`k > 1` times in the guess, `min_count` is the number of Correct plus Present
marks for that letter and `max_count` is the number of non-Absent marks when
some occurrence is marked Absent (otherwise unbounded up to word length); a
word is kept iff its count of the letter lies in `[min_count, max_count]`,
it carries the letter at every position marked Correct, and for every
position marked Present it avoids the letter at that position while
containing it at some other position not already pinned Correct. -/
def keptByReconciliation (g : Word) (info : List Color) (c : Nat)
    (w : Word) : Bool :=
  let occ := WordleBuddy.positionsOf g c
  let marks := occ.map (fun i => info.getD i Color.gray)
  let minCount := marks.count Color.green + marks.count Color.yellow
  let maxCount := if marks.contains Color.gray then
      marks.countP (fun m => !(m == Color.gray))
    else g.length
  let correctPinned := occ.filter (fun i => info.getD i Color.gray == Color.green)
  decide (minCount ≤ w.count c) && decide (w.count c ≤ maxCount) &&
    correctPinned.all (fun i => w.getD i 0 == c) &&
    (occ.filter (fun i => info.getD i Color.gray == Color.yellow)).all
      (fun i => !(w.getD i 0 == c) &&
        (List.range w.length).any (fun j =>
          !(j == i) && !(correctPinned.contains j) && (w.getD j 0 == c)))

theorem countP_not_gray (l : List Color) :
    l.countP (fun m => !(m == Color.gray))
      = l.count Color.green + l.count Color.yellow := by
  induction l with
  | nil => rfl
  | cons a l ih =>
    cases a <;> simp [List.countP_cons, List.count_cons, ih] <;> omega

theorem spec_yellow_equiv (w : Word) (c i : Nat) (L : List Nat)
    (hni : w.getD i 0 ≠ c) :
    ((List.range w.length).any (fun j =>
        !(j == i) && !(L.contains j) && (w.getD j 0 == c)) = true)
      ↔ WordleBuddy.containsOutside w c L = true := by
  rw [WordleBuddy.containsOutside, List.any_eq_true, List.any_eq_true]
  constructor
  · rintro ⟨j, hj, hpred⟩
    refine ⟨j, hj, ?_⟩
    simp only [Bool.and_eq_true] at hpred ⊢
    exact ⟨hpred.1.2, hpred.2⟩
  · rintro ⟨j, hj, hpred⟩
    refine ⟨j, hj, ?_⟩
    simp only [Bool.and_eq_true] at hpred ⊢
    have hc : w.getD j 0 = c := by simpa using hpred.2
    have hji : j ≠ i := by
      intro h
      exact hni (h ▸ hc)
    refine ⟨⟨by simpa using hji, hpred.1⟩, by simpa using hc⟩

end SpecSide

theorem maxCount_eq_spec (g : Word) (info : List Color) (c : Nat) :
    WordleBuddy.maxCountOf g info c
      = (if (WordleBuddy.marksOf g info c).contains Color.gray then
          (WordleBuddy.marksOf g info c).countP (fun m => !(m == Color.gray))
        else g.length) := by
  rw [WordleBuddy.maxCountOf, SpecSide.countP_not_gray]
  have hpart := ListFacts.color_count_partition (WordleBuddy.marksOf g info c)
  by_cases hgr : (WordleBuddy.marksOf g info c).contains Color.gray = true
  · rw [if_pos hgr, if_pos hgr]
    omega
  · rw [if_neg hgr, if_neg hgr]

/-- Claim C2: repeated-letter reconciliation in cull. For a letter occurring
`k > 1` times in the guess, the repeated-letter processing step of
`WordBankManager.cull` keeps exactly the words satisfying the spec's
count-window and positional constraints.  (Per the spec's glossary, a
Present mark also excludes the letter from the marked position itself.) -/
theorem repeated_letter_reconciliation_exact (bank : List Word) (g : Word)
    (info : List Color) (c : Nat) (w : Word) (hk : 2 ≤ g.count c) :
    w ∈ WordleBuddy.processLetter bank g info c
      ↔ w ∈ bank ∧ SpecSide.keptByReconciliation g info c w = true := by
  have hne : (WordleBuddy.positionsOf g c).length ≠ 1 := by
    rw [WordleBuddy.length_positionsOf]; omega
  rw [WordleBuddy.mem_processLetter_multi hne]
  simp only [SpecSide.keptByReconciliation, Bool.and_eq_true,
    decide_eq_true_eq, List.all_eq_true, Bool.not_eq_true',
    beq_eq_false_iff_ne, beq_iff_eq]
  constructor
  · rintro ⟨hb, ⟨hmin, hmax⟩, hgreen, hyellow⟩
    refine ⟨hb, ⟨⟨⟨?_, ?_⟩, ?_⟩, ?_⟩⟩
    · rw [WordleBuddy.minCountOf, WordleBuddy.marksOf] at hmin
      omega
    · rw [maxCount_eq_spec, WordleBuddy.marksOf] at hmax
      exact hmax
    · intro i hi
      refine hgreen i ?_
      rw [WordleBuddy.greenIdxsOf]
      exact hi
    · intro i hi
      have hi' : i ∈ WordleBuddy.yellowIdxsOf g info c := by
        rw [WordleBuddy.yellowIdxsOf]; exact hi
      obtain ⟨hcont, hni⟩ := hyellow i hi'
      refine ⟨hni, ?_⟩
      rw [SpecSide.spec_yellow_equiv w c i _ hni]
      rw [WordleBuddy.greenIdxsOf] at hcont
      exact hcont
  · rintro ⟨hb, ⟨⟨⟨hmin, hmax⟩, hgreen⟩, hyellow⟩⟩
    refine ⟨hb, ⟨?_, ?_⟩, ?_, ?_⟩
    · rw [WordleBuddy.minCountOf, WordleBuddy.marksOf]
      omega
    · rw [maxCount_eq_spec, WordleBuddy.marksOf]
      exact hmax
    · intro i hi
      rw [WordleBuddy.greenIdxsOf] at hi
      exact hgreen i hi
    · intro i hi
      rw [WordleBuddy.yellowIdxsOf] at hi
      obtain ⟨hni, hany⟩ := hyellow i hi
      refine ⟨?_, hni⟩
      rw [WordleBuddy.greenIdxsOf]
      exact (SpecSide.spec_yellow_equiv w c i _ hni).mp hany

/-! ### Encoding and decoding of words (`word_bank_manager.py` lines 126-132) -/

namespace WordleBuddy

/-- ASCII lowercasing on code points, the `char.lower()` step of
`encode_word`: characters are represented by their code points. -/
def toLowerCode (n : Nat) : Nat := if 65 ≤ n ∧ n ≤ 90 then n + 32 else n

/-- ASCII uppercasing on code points (`str.upper()`), used only to state the
round trip on the uppercase form of a word. -/
def toUpperCode (n : Nat) : Nat := if 97 ≤ n ∧ n ≤ 122 then n - 32 else n

/-- Embeds `WordBankManager.encode_word` (line 130):
`ord(char.lower()) - self.ascii_converter_key` for each character. -/
def encode_word (key : Int) (w : List Nat) : List Int :=
  w.map (fun n => (toLowerCode n : Int) - key)

/-- Embeds `WordBankManager.decode_word` (line 126):
`chr(char + self.ascii_converter_key)` for each code. -/
def decode_word (key : Int) (codes : List Int) : List Nat :=
  codes.map (fun x => (x + key).toNat)

end WordleBuddy

/-! ### The legacy string-based cull of `guessing.py` -/

namespace Legacy

/-- Code point of the feedback character `'g'`. -/
def gChar : Nat := 103

/-- Code point of the feedback character `'y'`. -/
def yChar : Nat := 121

/-- Code point of the feedback character `'w'`. -/
def wChar : Nat := 119

/-- The three `ValueError` conditions of
`GuessHelper.cull_possible_word_bank` (guessing.py lines 139-144). -/
inductive CullError
  | unknownWord
  | invalidFeedbackChars
  | wrongFeedbackLength
deriving DecidableEq, Repr

/-- The `letter_counts` table (guessing.py lines 146-151): occurrences of a
letter in the guess that were labelled green or yellow. -/
def gyCount (g : Word) (info : List Nat) (c : Nat) : Nat :=
  (g.zip info).countP (fun p => p.1 == c && (p.2 == gChar || p.2 == yChar))

/-- One iteration of the positional cull loop (guessing.py lines 154-178). -/
def stepFilter (g : Word) (info : List Nat) (bank : List Word)
    (pos ch chInfo : Nat) : List Word :=
  if chInfo = gChar then
    bank.filter (fun w => w.getD pos 0 == ch)
  else if chInfo = yChar then
    bank.filter (fun w => w.contains ch && !(w.getD pos 0 == ch))
  else if chInfo = wChar then
    if gyCount g info ch = 0 then
      bank.filter (fun w => !(w.contains ch))
    else
      bank.filter (fun w =>
        decide (w.count ch ≤ gyCount g info ch) && !(w.getD pos 0 == ch))
  else bank

/-- The positional filtering phase of `cull_possible_word_bank`: a fold over
`enumerate(zip(guessed_word, guessed_word_info))`. -/
def cullFilter (bank : List Word) (g : Word) (info : List Nat) : List Word :=
  ((g.zip info).enum).foldl
    (fun b p => stepFilter g info b p.1 p.2.1 p.2.2) bank

/-- Embeds `GuessHelper.cull_possible_word_bank` (guessing.py lines
125-178): the three validations run, in order, before any filtering; a
failure raises `ValueError` (here: returns the matching error). -/
def cullChecked (fullBank bank : List Word) (g : Word) (info : List Nat) :
    Except CullError (List Word) :=
  if g ∉ fullBank then .error .unknownWord
  else if ¬ (info.all
      (fun ch => ch == gChar || ch == yChar || ch == wChar) = true) then
    .error .invalidFeedbackChars
  else if info.length ≠ 5 then .error .wrongFeedbackLength
  else .ok (cullFilter bank g info)

/-- The `possible_word_bank` attribute after the call: when the method
raises, the attribute still holds the previous bank (all assignments happen
after validation). -/
def cullRun (fullBank bank : List Word) (g : Word) (info : List Nat) :
    List Word :=
  match cullChecked fullBank bank g info with
  | .ok b => b
  | .error _ => bank

end Legacy

/-! ### Claim theorems: constraint filter -/

/-- Claim C1: soundness of the constraint filter.  If feedback is computed
from secret `s` and guess `g` by the standard two-pass oracle rule and `s`
is in the possible word bank before `cull`, then `s` is still in the bank
after `WordBankManager.cull guess feedback`. -/
theorem cull_oracle_sound (bank : List Word) (s g : Word)
    (hs : s ∈ bank) (hlen : s.length = g.length) :
    s ∈ WordleBuddy.cull bank g (Oracle.oracle s g) := by
  rw [WordleBuddy.cull]
  exact WordleBuddy.cullLoop_keeps_secret s g _ bank hs hlen

/-- Witness for C1 at the spec's round-trip example: secret "crane", guess
"arose" (letter codes normalized by the key 97). -/
theorem cull_oracle_sound_witness :
    [2, 17, 0, 13, 4] ∈ WordleBuddy.cull
      [[2, 17, 0, 13, 4], [0, 17, 14, 18, 4]] [0, 17, 14, 18, 4]
      (Oracle.oracle [2, 17, 0, 13, 4] [0, 17, 14, 18, 4]) :=
  cull_oracle_sound [[2, 17, 0, 13, 4], [0, 17, 14, 18, 4]]
    [2, 17, 0, 13, 4] [0, 17, 14, 18, 4] (by decide) (by decide)

/-- Witness for C2 at the spec's repeated-letter example: guess "sassy"
against secret "glass" with the oracle feedback
`[yellow, yellow, gray, green, gray]`, letter 's' (code 18). -/
theorem repeated_letter_reconciliation_exact_witness :
    2 ≤ ([18, 0, 18, 18, 24] : Word).count 18
    ∧ ([6, 11, 0, 18, 18] ∈ WordleBuddy.processLetter [[6, 11, 0, 18, 18]]
          [18, 0, 18, 18, 24]
          [Color.yellow, Color.yellow, Color.gray, Color.green, Color.gray] 18
        ↔ [6, 11, 0, 18, 18] ∈ ([[6, 11, 0, 18, 18]] : List Word)
          ∧ SpecSide.keptByReconciliation [18, 0, 18, 18, 24]
              [Color.yellow, Color.yellow, Color.gray, Color.green, Color.gray]
              18 [6, 11, 0, 18, 18] = true) :=
  ⟨by decide, repeated_letter_reconciliation_exact _ _ _ _ _ (by decide)⟩

/-- Claim C3: monotone-shrink invariant.  Every state reachable by cull and
reset operations is a sublist (hence a subset) of the dictionary, and a
single cull yields a sublist of its input bank, so its size never increases
and a word not in the input bank is never in the output bank. -/
theorem viable_monotone_invariant (full bank : List Word)
    (ops : List WordleBuddy.Op) (g : Word) (info : List Color) :
    List.Sublist (WordleBuddy.runGame full ops) full
    ∧ WordleBuddy.runGame full ops ⊆ full
    ∧ List.Sublist (WordleBuddy.cull bank g info) bank
    ∧ (WordleBuddy.cull bank g info).length ≤ bank.length
    ∧ WordleBuddy.cull bank g info ⊆ bank := by
  have h1 : List.Sublist (WordleBuddy.runGame full ops) full := by
    rw [WordleBuddy.runGame]
    exact WordleBuddy.runOps_sublist full ops full (List.Sublist.refl full)
  have h2 := WordleBuddy.cull_sublist bank g info
  exact ⟨h1, h1.subset, h2, h2.length_le, h2.subset⟩

/-- Counterexample to claim C4 as stated: `WordBankManager.cull` performs no
validation at all; culling with a guess that is not in the dictionary
raises nothing and still filters the bank (here down to the empty bank). -/
theorem cull_no_validation_counterexample :
    ([0, 0, 0, 0, 0] : Word) ∉ ([[0, 1, 2, 3, 4]] : List Word)
    ∧ WordleBuddy.cull [[0, 1, 2, 3, 4]] [0, 0, 0, 0, 0]
        [Color.gray, Color.gray, Color.gray, Color.gray, Color.gray] = []
    ∧ WordleBuddy.cull [[0, 1, 2, 3, 4]] [0, 0, 0, 0, 0]
        [Color.gray, Color.gray, Color.gray, Color.gray, Color.gray]
      ≠ [[0, 1, 2, 3, 4]] := by
  refine ⟨by decide, by decide, by decide⟩

/-- Claim C4 (amended): only the legacy `GuessHelper.cull_possible_word_bank`
validates its inputs; it does so fully before any filtering, so an unknown
guess, malformed feedback symbols, or a wrong feedback length produce the
corresponding `ValueError` and leave the possible word bank unchanged. -/
theorem legacy_cull_validation (fullBank bank : List Word) (g : Word)
    (info : List Nat) :
    (g ∉ fullBank →
      Legacy.cullChecked fullBank bank g info
          = Except.error Legacy.CullError.unknownWord
        ∧ Legacy.cullRun fullBank bank g info = bank)
    ∧ (g ∈ fullBank →
      ¬ (info.all (fun ch =>
          ch == Legacy.gChar || ch == Legacy.yChar || ch == Legacy.wChar)
            = true) →
      Legacy.cullChecked fullBank bank g info
          = Except.error Legacy.CullError.invalidFeedbackChars
        ∧ Legacy.cullRun fullBank bank g info = bank)
    ∧ (g ∈ fullBank →
      (info.all (fun ch =>
          ch == Legacy.gChar || ch == Legacy.yChar || ch == Legacy.wChar)
            = true) →
      info.length ≠ 5 →
      Legacy.cullChecked fullBank bank g info
          = Except.error Legacy.CullError.wrongFeedbackLength
        ∧ Legacy.cullRun fullBank bank g info = bank) := by
  refine ⟨?_, ?_, ?_⟩
  · intro h
    have hc : Legacy.cullChecked fullBank bank g info
        = Except.error Legacy.CullError.unknownWord := by
      rw [Legacy.cullChecked, if_pos h]
    exact ⟨hc, by rw [Legacy.cullRun, hc]⟩
  · intro h hbad
    have hc : Legacy.cullChecked fullBank bank g info
        = Except.error Legacy.CullError.invalidFeedbackChars := by
      rw [Legacy.cullChecked, if_neg (not_not_intro h), if_pos hbad]
    exact ⟨hc, by rw [Legacy.cullRun, hc]⟩
  · intro h hok hlen
    have hc : Legacy.cullChecked fullBank bank g info
        = Except.error Legacy.CullError.wrongFeedbackLength := by
      rw [Legacy.cullChecked, if_neg (not_not_intro h),
        if_neg (not_not_intro hok), if_pos hlen]
    exact ⟨hc, by rw [Legacy.cullRun, hc]⟩

/-- Witness for C4 (amended) at a concrete invalid input: guess not in the
dictionary. -/
theorem legacy_cull_validation_witness :
    ([9, 9, 9, 9, 9] : Word) ∉ ([[0, 1, 2, 3, 4]] : List Word)
    ∧ (Legacy.cullChecked [[0, 1, 2, 3, 4]] [[0, 1, 2, 3, 4]]
          [9, 9, 9, 9, 9] [103, 103, 103, 103, 103]
        = Except.error Legacy.CullError.unknownWord
      ∧ Legacy.cullRun [[0, 1, 2, 3, 4]] [[0, 1, 2, 3, 4]]
          [9, 9, 9, 9, 9] [103, 103, 103, 103, 103] = [[0, 1, 2, 3, 4]]) :=
  ⟨by decide,
    (legacy_cull_validation [[0, 1, 2, 3, 4]] [[0, 1, 2, 3, 4]]
      [9, 9, 9, 9, 9] [103, 103, 103, 103, 103]).1 (by decide)⟩

/-- Claim C10: encode/decode round trip.  For a word of lowercase letters
whose code points are at least the stored key,
`decode_word (encode_word w) = w`; since `encode_word` lowercases first, the
uppercase form of the word also decodes back to the lowercase word. -/
theorem decode_encode_roundtrip (key : Int) (w : List Nat)
    (hlower : ∀ c ∈ w, 97 ≤ c ∧ c ≤ 122)
    (hkey : ∀ c ∈ w, key ≤ (c : Int)) :
    WordleBuddy.decode_word key (WordleBuddy.encode_word key w) = w
    ∧ WordleBuddy.decode_word key
        (WordleBuddy.encode_word key (w.map WordleBuddy.toUpperCode)) = w := by
  constructor
  · rw [WordleBuddy.encode_word, WordleBuddy.decode_word, List.map_map]
    have hid : ∀ c ∈ w,
        (((WordleBuddy.toLowerCode c : Int) - key + key).toNat) = c := by
      intro c hc
      obtain ⟨h1, _⟩ := hlower c hc
      have hl : WordleBuddy.toLowerCode c = c := by
        rw [WordleBuddy.toLowerCode, if_neg (by omega)]
      rw [hl]
      omega
    calc w.map ((fun x => (x + key).toNat)
            ∘ (fun n => (WordleBuddy.toLowerCode n : Int) - key))
        = w.map id := List.map_congr_left (fun c hc => hid c hc)
      _ = w := List.map_id w
  · rw [WordleBuddy.encode_word, WordleBuddy.decode_word, List.map_map,
      List.map_map]
    have hid : ∀ c ∈ w,
        (((WordleBuddy.toLowerCode (WordleBuddy.toUpperCode c) : Int)
          - key + key).toNat) = c := by
      intro c hc
      obtain ⟨h1, h2⟩ := hlower c hc
      have hu : WordleBuddy.toUpperCode c = c - 32 := by
        rw [WordleBuddy.toUpperCode, if_pos (by omega)]
      have hl : WordleBuddy.toLowerCode (c - 32) = c - 32 + 32 := by
        rw [WordleBuddy.toLowerCode, if_pos (by omega)]
      rw [hu, hl]
      omega
    calc w.map (((fun x => (x + key).toNat)
            ∘ (fun n => (WordleBuddy.toLowerCode n : Int) - key))
            ∘ WordleBuddy.toUpperCode)
        = w.map id := List.map_congr_left (fun c hc => hid c hc)
      _ = w := List.map_id w

/-- Witness for C10 at the word "crane" (codes 99, 114, 97, 110, 101) with
key 97. -/
theorem decode_encode_roundtrip_witness :
    (∀ c ∈ ([99, 114, 97, 110, 101] : List Nat), 97 ≤ c ∧ c ≤ 122)
    ∧ (WordleBuddy.decode_word 97
          (WordleBuddy.encode_word 97 [99, 114, 97, 110, 101])
        = [99, 114, 97, 110, 101]
      ∧ WordleBuddy.decode_word 97
          (WordleBuddy.encode_word 97
            (([99, 114, 97, 110, 101] : List Nat).map WordleBuddy.toUpperCode))
        = [99, 114, 97, 110, 101]) :=
  ⟨by decide,
    decode_encode_roundtrip 97 [99, 114, 97, 110, 101] (by decide) (by decide)⟩

/-! ### The entropy scoring engine of `wordle_buddy/utils/word_scorer_entropy.py`

The numeric computations are embedded generically over a linear ordered
field `α` together with a function `log2 : α → α`; the theorems instantiate
`α := ℝ` and `log2 := Real.logb 2`. -/

namespace Scoring

section

variable (α : Type) [LinearOrderedField α] (log2 : α → α)

/-- Binary Shannon entropy `H(p) = -p log2 p - (1-p) log2 (1-p)`
(`word_scorer_entropy.py` lines 83-85). -/
def binEntropy (p : α) : α := -(p * log2 p) - (1 - p) * log2 (1 - p)

/-- The clipping epsilon `1e-10` (line 77). -/
def eps : α := 1 / 10 ^ 10

/-- Embeds `np.clip(x, epsilon, 1 - epsilon)` (lines 78-80). -/
def clip (x : α) : α := min (max x (eps α)) (1 - eps α)

/-- Embeds `_precompute_letter_frequencies` (lines 49-58): the number of
possible-bank words carrying letter `c` at position `p`. -/
def charFreq (bank : List Word) (c p : Nat) : Nat :=
  bank.countP (fun w => w.getD p 0 == c)

/-- Row sum of the frequency table (line 67): total occurrences of the
letter over the five positions. -/
def totalCharFreq (bank : List Word) (c : Nat) : Nat :=
  ((List.range 5).map (fun p => charFreq bank c p)).sum

/-- `p_green` (line 72) after clipping. -/
def pGreen (bank : List Word) (c p : Nat) : α :=
  clip α ((charFreq bank c p : α) / (bank.length : α))

/-- `p_yellow` (line 73) after clipping. -/
def pYellow (bank : List Word) (c p : Nat) : α :=
  clip α (((totalCharFreq bank c - charFreq bank c p : Nat) : α)
    / (bank.length : α))

/-- `p_white` (line 74) after clipping. -/
def pWhite (bank : List Word) (c : Nat) : α :=
  clip α (1 - (totalCharFreq bank c : α) / (bank.length : α))

/-- Green-channel entropy of a letter/position pair (line 83). -/
def greenEntropy (bank : List Word) (c p : Nat) : α :=
  binEntropy α log2 (pGreen α bank c p)

/-- Yellow-channel entropy of a letter/position pair (line 84). -/
def yellowEntropy (bank : List Word) (c p : Nat) : α :=
  binEntropy α log2 (pYellow α bank c p)

/-- White-channel entropy of a letter (line 85). -/
def whiteEntropy (bank : List Word) (c : Nat) : α :=
  binEntropy α log2 (pWhite α bank c)

/-- One per-position entry of `_apply_hyperparameters` (lines 112-132):
green entropy plus yellow entropy weighted by `(1 + 1/k)/2` plus white
entropy weighted by `1/k` (or 1 when `k = 0`), where `k` is the number of
occurrences of the position's letter within the word itself. -/
def wordEntry (bank : List Word) (w : Word) (p : Nat) : α :=
  greenEntropy α log2 bank (w.getD p 0) p
    + yellowEntropy α log2 bank (w.getD p 0) p
      * ((1 + 1 / (w.count (w.getD p 0) : α)) / 2)
    + whiteEntropy α log2 bank (w.getD p 0)
      * (if 0 < w.count (w.getD p 0) then 1 / (w.count (w.getD p 0) : α) else 1)

/-- The endgame multiplier of lines 136-147: when at most two viable words
remain or this is the final attempt, words outside the possible bank get
factor 0 and possible words factor 1; otherwise the factor is 1. -/
def endgameFactor (possible : List Word) (attempt maxGuesses : Nat)
    (w : Word) : α :=
  if possible.length ≤ 2 ∨ attempt = maxGuesses then
    (if w ∈ possible then 1 else 0)
  else 1

/-- The raw entropy sum of a word before the endgame weighting. -/
def baseScore (bank : List Word) (w : Word) : α :=
  ((List.range 5).map (fun p => wordEntry α log2 bank w p)).sum

/-- Final score of one word of the scoring universe: each per-position entry
is multiplied by the endgame factor, then the row is summed
(`score_word_bank`, lines 184-190). -/
def scoreOne (possible : List Word) (attempt maxGuesses : Nat) (w : Word) : α :=
  ((List.range 5).map (fun p =>
    wordEntry α log2 possible w p
      * endgameFactor α possible attempt maxGuesses w)).sum

/-- Embeds `WordScorerEntropy.score_word_bank` (lines 173-192): the scoring
universe is the possible bank in hardcore mode and the full bank otherwise
(`current_word_bank`, lines 42-47); the reference distribution is always the
possible bank. -/
def scoreWordBank (full possible : List Word) (hardcore : Bool)
    (attempt maxGuesses : Nat) : List α :=
  (if hardcore then possible else full).map
    (fun w => scoreOne α log2 possible attempt maxGuesses w)

end

end Scoring

/-! ### The legacy per-word scorer of `guessing.py` (`EntropyScoreCalculator`) -/

namespace Legacy

/-- Embeds `calculate_green_entropy` (guessing.py lines 249-268): an
explicit guard returns exactly 0 for degenerate frequencies, otherwise the
binary entropy of `frequency / total_words`. -/
def greenEntropyCalc (α : Type) [LinearOrderedField α] (log2 : α → α)
    (bank : List Word) (c p : Nat) : α :=
  if Scoring.charFreq bank c p = 0 ∨ bank.length ≤ Scoring.charFreq bank c p
  then 0
  else Scoring.binEntropy α log2
    ((Scoring.charFreq bank c p : α) / (bank.length : α))

/-- Total frequency of the letter at positions other than `p`
(`calculate_yellow_entropy`, lines 281-283; the dictionary holds the five
positions, and an empty bank contributes zero everywhere). -/
def otherPosFreq (bank : List Word) (c p : Nat) : Nat :=
  (((List.range 5).filter (fun q => !(q == p))).map
    (fun q => Scoring.charFreq bank c q)).sum

/-- Embeds `calculate_yellow_entropy` (guessing.py lines 270-291). -/
def yellowEntropyCalc (α : Type) [LinearOrderedField α] (log2 : α → α)
    (bank : List Word) (c p : Nat) : α :=
  if otherPosFreq bank c p = 0 ∨ bank.length ≤ otherPosFreq bank c p then 0
  else Scoring.binEntropy α log2
    ((otherPosFreq bank c p : α) / (bank.length : α))

/-- Embeds `calculate_white_entropy` (guessing.py lines 293-313). -/
def whiteEntropyCalc (α : Type) [LinearOrderedField α] (log2 : α → α)
    (bank : List Word) (c : Nat) : α :=
  if Scoring.totalCharFreq bank c = 0
      ∨ bank.length ≤ Scoring.totalCharFreq bank c then 0
  else Scoring.binEntropy α log2
    ((Scoring.totalCharFreq bank c : α) / (bank.length : α))

/-- The vowels `"aeiou"` of `EntropyScoreCalculator.__call__` (line 193),
as character code points. -/
def isVowel (c : Nat) : Bool := c ∈ [97, 101, 105, 111, 117]

/-- The fields of the root `hyperparameters.py` record used by the legacy
scorer. -/
structure Hyper (α : Type) where
  vowelPosWeights : List α
  consonantPosWeights : List α
  answerWeightBase : α
  maxGuesses : Nat

/-- One position's contribution inside `EntropyScoreCalculator.__call__`
(guessing.py lines 196-213): `letter_counts[char]` is the running count of
the letter over the prefix ending at this position; a repeated letter zeroes
the white entropy and diminishes the yellow entropy by `1/k`; the combined
entropy is multiplied by the vowel or consonant positional weight. -/
def callEntry (α : Type) [LinearOrderedField α] (log2 : α → α)
    (hp : Hyper α) (bank : List Word) (w : Word) (p : Nat) : α :=
  (if isVowel (w.getD p 0) then hp.vowelPosWeights.getD p 0
    else hp.consonantPosWeights.getD p 0)
  * (greenEntropyCalc α log2 bank (w.getD p 0) p
    + (if 1 < (w.take (p + 1)).count (w.getD p 0) then
        yellowEntropyCalc α log2 bank (w.getD p 0) p
          * (1 / ((w.take (p + 1)).count (w.getD p 0) : α))
      else yellowEntropyCalc α log2 bank (w.getD p 0) p)
    + (if 1 < (w.take (p + 1)).count (w.getD p 0) then 0
      else whiteEntropyCalc α log2 bank (w.getD p 0)))

/-- Embeds `EntropyScoreCalculator.__call__` (guessing.py lines 183-220):
the per-position contributions are summed, then the score of a word still
in the possible bank is multiplied by the answer weight. -/
def callScore (α : Type) [LinearOrderedField α] (log2 : α → α)
    (hp : Hyper α) (possible : List Word) (attempt : Nat) (w : Word) : α :=
  if w ∈ possible then
    (((List.range w.length).map (fun p => callEntry α log2 hp possible w p)).sum)
      * (hp.answerWeightBase * (1 + (attempt : α) / (hp.maxGuesses : α)))
  else ((List.range w.length).map (fun p => callEntry α log2 hp possible w p)).sum

end Legacy

/-! ### Claim theorems: scoring -/

/-- Claim C6: endgame plausibility weighting.  The score of a candidate is
zero exactly when at most two viable words remain or the attempt is the last
one and the candidate is not itself in the possible bank; otherwise the
candidate keeps its raw entropy score. -/
theorem endgame_zeroing (possible : List Word) (attempt maxGuesses : Nat)
    (w : Word) :
    Scoring.scoreOne ℝ (Real.logb 2) possible attempt maxGuesses w
      = if (possible.length ≤ 2 ∨ attempt = maxGuesses) ∧ w ∉ possible then 0
        else Scoring.baseScore ℝ (Real.logb 2) possible w := by
  rw [Scoring.scoreOne, Scoring.baseScore]
  by_cases hcond : possible.length ≤ 2 ∨ attempt = maxGuesses
  · by_cases hmem : w ∈ possible
    · rw [if_neg (by tauto)]
      have hf : Scoring.endgameFactor ℝ possible attempt maxGuesses w = 1 := by
        rw [Scoring.endgameFactor, if_pos hcond, if_pos hmem]
      rw [hf]
      simp
    · rw [if_pos ⟨hcond, hmem⟩]
      have hf : Scoring.endgameFactor ℝ possible attempt maxGuesses w = 0 := by
        rw [Scoring.endgameFactor, if_pos hcond, if_neg hmem]
      rw [hf]
      simp
  · rw [if_neg (by tauto)]
    have hf : Scoring.endgameFactor ℝ possible attempt maxGuesses w = 1 := by
      rw [Scoring.endgameFactor, if_neg hcond]
    rw [hf]
    simp

/-- Claim C7 (amended): in the legacy `EntropyScoreCalculator`, a
letter/position pair whose channel frequency is 0 or equal to the universe
size yields entropy exactly 0, via the explicit guard (no clipping is
involved there). -/
theorem degenerate_entropy_exact_zero (bank : List Word) (c p : Nat) :
    (Scoring.charFreq bank c p = 0
        ∨ Scoring.charFreq bank c p = bank.length →
      Legacy.greenEntropyCalc ℝ (Real.logb 2) bank c p = 0)
    ∧ (Legacy.otherPosFreq bank c p = 0
        ∨ Legacy.otherPosFreq bank c p = bank.length →
      Legacy.yellowEntropyCalc ℝ (Real.logb 2) bank c p = 0)
    ∧ (Scoring.totalCharFreq bank c = 0
        ∨ Scoring.totalCharFreq bank c = bank.length →
      Legacy.whiteEntropyCalc ℝ (Real.logb 2) bank c = 0) := by
  refine ⟨?_, ?_, ?_⟩
  · intro h
    rw [Legacy.greenEntropyCalc, if_pos (by omega)]
  · intro h
    rw [Legacy.yellowEntropyCalc, if_pos (by omega)]
  · intro h
    rw [Legacy.whiteEntropyCalc, if_pos (by omega)]

/-- Witness for C7 (amended): universe of one word, letter 0 at position 1
has frequency 0, so the legacy green entropy is exactly 0. -/
theorem degenerate_entropy_exact_zero_witness :
    (Scoring.charFreq [[0, 1, 2, 3, 4]] 0 1 = 0
        ∨ Scoring.charFreq [[0, 1, 2, 3, 4]] 0 1
          = ([[0, 1, 2, 3, 4]] : List Word).length →
      Legacy.greenEntropyCalc ℝ (Real.logb 2) [[0, 1, 2, 3, 4]] 0 1 = 0)
    ∧ (Legacy.otherPosFreq [[0, 1, 2, 3, 4]] 0 1 = 0
        ∨ Legacy.otherPosFreq [[0, 1, 2, 3, 4]] 0 1
          = ([[0, 1, 2, 3, 4]] : List Word).length →
      Legacy.yellowEntropyCalc ℝ (Real.logb 2) [[0, 1, 2, 3, 4]] 0 1 = 0)
    ∧ (Scoring.totalCharFreq [[0, 1, 2, 3, 4]] 0 = 0
        ∨ Scoring.totalCharFreq [[0, 1, 2, 3, 4]] 0
          = ([[0, 1, 2, 3, 4]] : List Word).length →
      Legacy.whiteEntropyCalc ℝ (Real.logb 2) [[0, 1, 2, 3, 4]] 0 = 0) :=
  degenerate_entropy_exact_zero [[0, 1, 2, 3, 4]] 0 1

/-! ### Numeric facts about the clipped binary entropy over the reals -/

namespace RealFacts

theorem eps_pos : (0 : ℝ) < Scoring.eps ℝ := by
  rw [Scoring.eps]; norm_num

theorem eps_lt_half : Scoring.eps ℝ < 1 / 2 := by
  rw [Scoring.eps]; norm_num

theorem clip_zero : Scoring.clip ℝ 0 = Scoring.eps ℝ := by
  rw [Scoring.clip, max_eq_right (le_of_lt eps_pos), min_eq_left]
  have := eps_lt_half
  linarith

theorem clip_one : Scoring.clip ℝ 1 = 1 - Scoring.eps ℝ := by
  rw [Scoring.clip, max_eq_left, min_eq_right]
  · linarith [eps_pos]
  · have := eps_pos
    have := eps_lt_half
    linarith

theorem binEntropy_symm (p : ℝ) :
    Scoring.binEntropy ℝ (Real.logb 2) (1 - p)
      = Scoring.binEntropy ℝ (Real.logb 2) p := by
  rw [Scoring.binEntropy, Scoring.binEntropy, sub_sub_cancel]
  ring

theorem binEntropy_pos {x : ℝ} (h0 : 0 < x) (h1 : x < 1) :
    0 < Scoring.binEntropy ℝ (Real.logb 2) x := by
  rw [Scoring.binEntropy]
  have h2 : Real.logb 2 x < 0 := Real.logb_neg (by norm_num) h0 h1
  have h3 : Real.logb 2 (1 - x) < 0 :=
    Real.logb_neg (by norm_num) (by linarith) (by linarith)
  nlinarith

theorem binEntropy_eps_pos :
    0 < Scoring.binEntropy ℝ (Real.logb 2) (Scoring.eps ℝ) :=
  binEntropy_pos eps_pos (by linarith [eps_lt_half])

theorem pGreen_one (bank : List Word) (c p : Nat)
    (hf : Scoring.charFreq bank c p = 1) (hl : bank.length = 1) :
    Scoring.pGreen ℝ bank c p = 1 - Scoring.eps ℝ := by
  have hq : ((1 : Nat) : ℝ) / ((1 : Nat) : ℝ) = 1 := by norm_num
  rw [Scoring.pGreen, hf, hl, hq, clip_one]

theorem pYellow_zero (bank : List Word) (c p : Nat)
    (hf : Scoring.totalCharFreq bank c - Scoring.charFreq bank c p = 0)
    (hl : bank.length = 1) :
    Scoring.pYellow ℝ bank c p = Scoring.eps ℝ := by
  have hq : ((0 : Nat) : ℝ) / ((1 : Nat) : ℝ) = 0 := by norm_num
  rw [Scoring.pYellow, hf, hl, hq, clip_zero]

theorem pWhite_zero (bank : List Word) (c : Nat)
    (hf : Scoring.totalCharFreq bank c = 1) (hl : bank.length = 1) :
    Scoring.pWhite ℝ bank c = Scoring.eps ℝ := by
  have hq : (1 : ℝ) - ((1 : Nat) : ℝ) / ((1 : Nat) : ℝ) = 0 := by norm_num
  rw [Scoring.pWhite, hf, hl, hq, clip_zero]

theorem channels_eval_one (bank : List Word) (c p : Nat)
    (hl : bank.length = 1) (hf : Scoring.charFreq bank c p = 1)
    (ht : Scoring.totalCharFreq bank c = 1) :
    Scoring.greenEntropy ℝ (Real.logb 2) bank c p
        = Scoring.binEntropy ℝ (Real.logb 2) (Scoring.eps ℝ)
    ∧ Scoring.yellowEntropy ℝ (Real.logb 2) bank c p
        = Scoring.binEntropy ℝ (Real.logb 2) (Scoring.eps ℝ)
    ∧ Scoring.whiteEntropy ℝ (Real.logb 2) bank c
        = Scoring.binEntropy ℝ (Real.logb 2) (Scoring.eps ℝ) := by
  refine ⟨?_, ?_, ?_⟩
  · rw [Scoring.greenEntropy, pGreen_one bank c p hf hl, binEntropy_symm]
  · rw [Scoring.yellowEntropy, pYellow_zero bank c p (by omega) hl]
  · rw [Scoring.whiteEntropy, pWhite_zero bank c ht hl]

theorem wordEntry_eval_one (bank : List Word) (w : Word) (p : Nat)
    (hl : bank.length = 1)
    (hf : Scoring.charFreq bank (w.getD p 0) p = 1)
    (ht : Scoring.totalCharFreq bank (w.getD p 0) = 1)
    (hc : w.count (w.getD p 0) = 1) :
    Scoring.wordEntry ℝ (Real.logb 2) bank w p
      = 3 * Scoring.binEntropy ℝ (Real.logb 2) (Scoring.eps ℝ) := by
  obtain ⟨hg, hy, hw⟩ := channels_eval_one bank (w.getD p 0) p hl hf ht
  rw [Scoring.wordEntry, hc, hg, hy, hw]
  norm_num
  ring

theorem scoreOne_abcde :
    Scoring.scoreOne ℝ (Real.logb 2) [[0, 1, 2, 3, 4]] 1 6 [0, 1, 2, 3, 4]
      = 15 * Scoring.binEntropy ℝ (Real.logb 2) (Scoring.eps ℝ) := by
  have hfac : Scoring.endgameFactor ℝ [[0, 1, 2, 3, 4]] 1 6 [0, 1, 2, 3, 4]
      = 1 := by
    rw [Scoring.endgameFactor, if_pos (by left; simp), if_pos (by simp)]
  have hentry : ∀ p ∈ List.range 5,
      Scoring.wordEntry ℝ (Real.logb 2) [[0, 1, 2, 3, 4]] [0, 1, 2, 3, 4] p
          * Scoring.endgameFactor ℝ [[0, 1, 2, 3, 4]] 1 6 [0, 1, 2, 3, 4]
        = 3 * Scoring.binEntropy ℝ (Real.logb 2) (Scoring.eps ℝ) := by
    intro p hp
    rw [hfac, mul_one]
    fin_cases hp <;>
      exact wordEntry_eval_one [[0, 1, 2, 3, 4]] [0, 1, 2, 3, 4] _
        (by decide) (by decide) (by decide) (by decide)
  rw [Scoring.scoreOne, List.map_congr_left hentry]
  have hr : List.range 5 = [0, 1, 2, 3, 4] := rfl
  rw [hr]
  simp
  ring

theorem scoreOne_abcdf :
    Scoring.scoreOne ℝ (Real.logb 2) [[0, 1, 2, 3, 4]] 1 6 [0, 1, 2, 3, 5]
      = 0 := by
  have hfac : Scoring.endgameFactor ℝ [[0, 1, 2, 3, 4]] 1 6 [0, 1, 2, 3, 5]
      = 0 := by
    rw [Scoring.endgameFactor, if_pos (by left; simp), if_neg (by decide)]
  rw [Scoring.scoreOne, hfac]
  simp

end RealFacts

/-! ### Claim C5: positional weighting -/

namespace SpecSide

/-- Vowel letter codes after normalization by the key 97 (a, e, i, o, u). -/
def isVowelCode (c : Nat) : Bool := c ∈ [0, 4, 8, 14, 20]

/-- Default vowel positional weights of
`wordle_buddy/utils/hyperparameters.py` (line 20). -/
def defaultVowelWeights (α : Type) [DivisionRing α] : List α :=
  [12 / 10, 12 / 10, 12 / 10, 12 / 10, 12 / 10]

/-- Default consonant positional weights of
`wordle_buddy/utils/hyperparameters.py` (line 21). -/
def defaultConsonantWeights (α : Type) [DivisionRing α] : List α :=
  [15 / 10, 1, 12 / 10, 11 / 10, 15 / 10]

/-- Claim C5 as stated, applied to the wordle_buddy scorer: every
per-position contribution `H_green + H_yellow + H_white` is multiplied by
the vowel or consonant positional weight before the contributions are
summed into the word's score. -/
def specWeightedScore (α : Type) [LinearOrderedField α] (log2 : α → α)
    (possible : List Word) (w : Word) : α :=
  ((List.range 5).map (fun p =>
    (if isVowelCode (w.getD p 0) then (defaultVowelWeights α).getD p 0
      else (defaultConsonantWeights α).getD p 0)
    * (Scoring.greenEntropy α log2 possible (w.getD p 0) p
      + Scoring.yellowEntropy α log2 possible (w.getD p 0) p
      + Scoring.whiteEntropy α log2 possible (w.getD p 0)))).sum

end SpecSide

/-- Counterexample to claim C5 as stated: on the one-word universe
`["abcde"]` (normalized codes), the wordle_buddy scorer gives the word the
unweighted score `15·H(ε)`, while the claimed positionally-weighted formula
gives `17.1·H(ε)`; the two differ because `H(ε) > 0`. -/
theorem positional_weighting_counterexample :
    Scoring.scoreOne ℝ (Real.logb 2) [[0, 1, 2, 3, 4]] 1 6 [0, 1, 2, 3, 4]
      ≠ SpecSide.specWeightedScore ℝ (Real.logb 2) [[0, 1, 2, 3, 4]]
          [0, 1, 2, 3, 4] := by
  rw [RealFacts.scoreOne_abcde]
  have hchan : ∀ p ∈ List.range 5,
      (if SpecSide.isVowelCode (([0, 1, 2, 3, 4] : Word).getD p 0) then
          (SpecSide.defaultVowelWeights ℝ).getD p 0
        else (SpecSide.defaultConsonantWeights ℝ).getD p 0)
      * (Scoring.greenEntropy ℝ (Real.logb 2) [[0, 1, 2, 3, 4]]
            (([0, 1, 2, 3, 4] : Word).getD p 0) p
        + Scoring.yellowEntropy ℝ (Real.logb 2) [[0, 1, 2, 3, 4]]
            (([0, 1, 2, 3, 4] : Word).getD p 0) p
        + Scoring.whiteEntropy ℝ (Real.logb 2) [[0, 1, 2, 3, 4]]
            (([0, 1, 2, 3, 4] : Word).getD p 0))
      = (if SpecSide.isVowelCode (([0, 1, 2, 3, 4] : Word).getD p 0) then
          (SpecSide.defaultVowelWeights ℝ).getD p 0
        else (SpecSide.defaultConsonantWeights ℝ).getD p 0)
        * (3 * Scoring.binEntropy ℝ (Real.logb 2) (Scoring.eps ℝ)) := by
    intro p hp
    fin_cases hp
    · simp only [List.getD_cons_zero, List.getD_cons_succ]
      obtain ⟨hg, hy, hw⟩ := RealFacts.channels_eval_one [[0, 1, 2, 3, 4]] 0 0
        (by decide) (by decide) (by decide)
      rw [hg, hy, hw]
      ring
    · simp only [List.getD_cons_zero, List.getD_cons_succ]
      obtain ⟨hg, hy, hw⟩ := RealFacts.channels_eval_one [[0, 1, 2, 3, 4]] 1 1
        (by decide) (by decide) (by decide)
      rw [hg, hy, hw]
      ring
    · simp only [List.getD_cons_zero, List.getD_cons_succ]
      obtain ⟨hg, hy, hw⟩ := RealFacts.channels_eval_one [[0, 1, 2, 3, 4]] 2 2
        (by decide) (by decide) (by decide)
      rw [hg, hy, hw]
      ring
    · simp only [List.getD_cons_zero, List.getD_cons_succ]
      obtain ⟨hg, hy, hw⟩ := RealFacts.channels_eval_one [[0, 1, 2, 3, 4]] 3 3
        (by decide) (by decide) (by decide)
      rw [hg, hy, hw]
      ring
    · simp only [List.getD_cons_zero, List.getD_cons_succ]
      obtain ⟨hg, hy, hw⟩ := RealFacts.channels_eval_one [[0, 1, 2, 3, 4]] 4 4
        (by decide) (by decide) (by decide)
      rw [hg, hy, hw]
      ring
  rw [SpecSide.specWeightedScore, List.map_congr_left hchan]
  have hr : List.range 5 = [0, 1, 2, 3, 4] := rfl
  rw [hr]
  simp only [List.map_cons, List.map_nil, List.sum_cons, List.sum_nil,
    SpecSide.isVowelCode, SpecSide.defaultVowelWeights,
    SpecSide.defaultConsonantWeights]
  norm_num
  intro heq
  have hpos := RealFacts.binEntropy_eps_pos
  nlinarith

/-- Claim C5 (amended): the positional vowel/consonant weighting is applied
in the legacy `EntropyScoreCalculator.__call__` of `guessing.py`: for a word
without repeated letters (so the repeated-letter corrections vanish), the
score is the answer-weight factor times the sum over positions of the
positional weight times `H_green + H_yellow + H_white`.  The wordle_buddy
`WordScorerEntropy` applies no positional weights (see the counterexample). -/
theorem legacy_positional_weighting (hp : Legacy.Hyper ℝ)
    (possible : List Word) (attempt : Nat) (w : Word) (hnd : w.Nodup) :
    Legacy.callScore ℝ (Real.logb 2) hp possible attempt w
      = (if w ∈ possible then
          hp.answerWeightBase * (1 + (attempt : ℝ) / (hp.maxGuesses : ℝ))
        else 1)
        * ((List.range w.length).map (fun p =>
            (if Legacy.isVowel (w.getD p 0) then hp.vowelPosWeights.getD p 0
              else hp.consonantPosWeights.getD p 0)
            * (Legacy.greenEntropyCalc ℝ (Real.logb 2) possible (w.getD p 0) p
              + Legacy.yellowEntropyCalc ℝ (Real.logb 2) possible (w.getD p 0) p
              + Legacy.whiteEntropyCalc ℝ (Real.logb 2) possible
                  (w.getD p 0)))).sum := by
  have hk : ∀ p ∈ List.range w.length,
      Legacy.callEntry ℝ (Real.logb 2) hp possible w p
        = (if Legacy.isVowel (w.getD p 0) then hp.vowelPosWeights.getD p 0
            else hp.consonantPosWeights.getD p 0)
          * (Legacy.greenEntropyCalc ℝ (Real.logb 2) possible (w.getD p 0) p
            + Legacy.yellowEntropyCalc ℝ (Real.logb 2) possible (w.getD p 0) p
            + Legacy.whiteEntropyCalc ℝ (Real.logb 2) possible (w.getD p 0)) := by
    intro p hp'
    have hplen : p < w.length := List.mem_range.mp hp'
    have hgd : w.getD p 0 = w[p] := by
      rw [List.getD_eq_getElem?_getD, List.getElem?_eq_getElem hplen]
      rfl
    have htake : p < (w.take (p + 1)).length := by
      rw [List.length_take]
      omega
    have h2 : w[p] = (w.take (p + 1))[p] :=
      List.getElem_take' w hplen (Nat.lt_succ_self p)
    have hmem : w.getD p 0 ∈ w.take (p + 1) := by
      rw [hgd, h2]
      exact List.getElem_mem htake
    have hcount : (w.take (p + 1)).count (w.getD p 0) = 1 :=
      List.count_eq_one_of_mem
        (List.Nodup.sublist (List.take_sublist (p + 1) w) hnd) hmem
    rw [Legacy.callEntry, hcount]
    norm_num
  rw [Legacy.callScore, List.map_congr_left hk]
  by_cases hmem : w ∈ possible
  · rw [if_pos hmem, if_pos hmem]
    ring
  · rw [if_neg hmem, if_neg hmem]
    ring

/-- Witness for C5 (amended) at the duplicate-free word "abcde" (raw codes)
over the one-word universe containing it, with the default legacy
hyperparameters. -/
theorem legacy_positional_weighting_witness :
    ([97, 98, 99, 100, 101] : Word).Nodup
    ∧ Legacy.callScore ℝ (Real.logb 2)
        ⟨SpecSide.defaultVowelWeights ℝ, SpecSide.defaultConsonantWeights ℝ,
          1, 6⟩
        [[97, 98, 99, 100, 101]] 1 [97, 98, 99, 100, 101]
      = (if ([97, 98, 99, 100, 101] : Word) ∈
            ([[97, 98, 99, 100, 101]] : List Word) then
          (1 : ℝ) * (1 + ((1 : Nat) : ℝ) / ((6 : Nat) : ℝ))
        else 1)
        * ((List.range ([97, 98, 99, 100, 101] : Word).length).map (fun p =>
            (if Legacy.isVowel (([97, 98, 99, 100, 101] : Word).getD p 0) then
              (SpecSide.defaultVowelWeights ℝ).getD p 0
            else (SpecSide.defaultConsonantWeights ℝ).getD p 0)
            * (Legacy.greenEntropyCalc ℝ (Real.logb 2)
                  [[97, 98, 99, 100, 101]]
                  (([97, 98, 99, 100, 101] : Word).getD p 0) p
              + Legacy.yellowEntropyCalc ℝ (Real.logb 2)
                  [[97, 98, 99, 100, 101]]
                  (([97, 98, 99, 100, 101] : Word).getD p 0) p
              + Legacy.whiteEntropyCalc ℝ (Real.logb 2)
                  [[97, 98, 99, 100, 101]]
                  (([97, 98, 99, 100, 101] : Word).getD p 0)))).sum :=
  ⟨by decide,
    legacy_positional_weighting
      ⟨SpecSide.defaultVowelWeights ℝ, SpecSide.defaultConsonantWeights ℝ,
        1, 6⟩
      [[97, 98, 99, 100, 101]] 1 [97, 98, 99, 100, 101] (by decide)⟩

/-! ### The best-guess selector of `wordle_buddy/guesser.py` -/

namespace Guesser

/-- The sentinel list `['No Viable Guesses']` of `best_guess` (lines 62 and
80), as character codes. -/
def noViableGuesses : List Nat :=
  [78, 111, 32, 86, 105, 97, 98, 108, 101, 32, 71, 117, 101, 115, 115, 101,
    115]

/-- Indices of the scores in descending score order
(`np.argsort(scores)[::-1]`, guesser.py line 70); numpy's unstable sort
leaves the order of tied scores unspecified, here modelled by a fixed
insertion sort. -/
def argsortDesc (α : Type) [LinearOrderedField α] (scores : List α) :
    List Nat :=
  (List.insertionSort (fun x y : Nat × α => y.2 ≤ x.2) scores.enum).map
    Prod.fst

/-- The index selection of `best_guess` (guesser.py lines 68-75): clamp the
requested count to the number of available words, take that many top
indices, and keep only the ones with a strictly positive score. -/
def bestGuessIndices (α : Type) [LinearOrderedField α] (scores : List α)
    (numBest numAvailable : Nat) : List Nat :=
  ((argsortDesc α scores).take (min numBest numAvailable)).filter
    (fun i => decide (0 < scores.getD i 0))

/-- Embeds `WordleGuesser.best_guess` (guesser.py lines 53-82): the sentinel
for an empty possible bank, scoring over the working bank, clamped positive
top selection, decoding back to code points (adding the key), and the
sentinel again when nothing scored positive. -/
def bestGuess (α : Type) [LinearOrderedField α] (log2 : α → α) (key : Nat)
    (full possible : List Word) (hardcore : Bool)
    (attempt maxGuesses numBest : Nat) : List (List Nat) :=
  if possible.isEmpty then [noViableGuesses]
  else if (bestGuessIndices α
      (Scoring.scoreWordBank α log2 full possible hardcore attempt maxGuesses)
      numBest (if hardcore then possible else full).length).isEmpty then
    [noViableGuesses]
  else (bestGuessIndices α
      (Scoring.scoreWordBank α log2 full possible hardcore attempt maxGuesses)
      numBest (if hardcore then possible else full).length).map
    (fun i => ((if hardcore then possible else full).getD i []).map
      (fun n => n + key))

theorem argsortDesc_perm (α : Type) [LinearOrderedField α]
    (scores : List α) :
    List.Perm (argsortDesc α scores) (List.range scores.length) := by
  rw [argsortDesc]
  have h1 : List.Perm
      (List.insertionSort (fun x y : Nat × α => y.2 ≤ x.2) scores.enum)
      scores.enum := List.perm_insertionSort _ _
  have h2 := h1.map Prod.fst
  have h3 : scores.enum.map Prod.fst = List.range scores.length := by
    rw [List.enum, List.enumFrom_map_fst, List.range_eq_range']
  rw [h3] at h2
  exact h2

theorem mem_argsortDesc {α : Type} [LinearOrderedField α] {scores : List α}
    {i : Nat} (h : i ∈ argsortDesc α scores) : i < scores.length :=
  List.mem_range.mp ((argsortDesc_perm α scores).mem_iff.mp h)

theorem length_argsortDesc (α : Type) [LinearOrderedField α]
    (scores : List α) : (argsortDesc α scores).length = scores.length := by
  rw [(argsortDesc_perm α scores).length_eq, List.length_range]

end Guesser

/-- Claim C9: the positive-score filter in `best_guess`.  An empty possible
bank yields the sentinel `['No Viable Guesses']`; every index the selection
returns carries a strictly positive score; when no word in the clamped top
selection scores positive the sentinel is returned even though the universe
is non-empty; otherwise the result is exactly the decoded positive-score
selection. -/
theorem best_guess_positive_filter (key : Nat) (full possible : List Word)
    (hardcore : Bool) (attempt maxGuesses numBest : Nat) :
    (possible.isEmpty = true →
      Guesser.bestGuess ℝ (Real.logb 2) key full possible hardcore attempt
          maxGuesses numBest = [Guesser.noViableGuesses])
    ∧ (∀ i ∈ Guesser.bestGuessIndices ℝ
          (Scoring.scoreWordBank ℝ (Real.logb 2) full possible hardcore
            attempt maxGuesses)
          numBest (if hardcore then possible else full).length,
        0 < (Scoring.scoreWordBank ℝ (Real.logb 2) full possible hardcore
            attempt maxGuesses).getD i 0)
    ∧ (possible.isEmpty = false →
      Guesser.bestGuessIndices ℝ
          (Scoring.scoreWordBank ℝ (Real.logb 2) full possible hardcore
            attempt maxGuesses)
          numBest (if hardcore then possible else full).length = [] →
      Guesser.bestGuess ℝ (Real.logb 2) key full possible hardcore attempt
          maxGuesses numBest = [Guesser.noViableGuesses])
    ∧ (possible.isEmpty = false →
      Guesser.bestGuessIndices ℝ
          (Scoring.scoreWordBank ℝ (Real.logb 2) full possible hardcore
            attempt maxGuesses)
          numBest (if hardcore then possible else full).length ≠ [] →
      Guesser.bestGuess ℝ (Real.logb 2) key full possible hardcore attempt
          maxGuesses numBest
        = (Guesser.bestGuessIndices ℝ
            (Scoring.scoreWordBank ℝ (Real.logb 2) full possible hardcore
              attempt maxGuesses)
            numBest (if hardcore then possible else full).length).map
          (fun i => ((if hardcore then possible else full).getD i []).map
            (fun n => n + key))) := by
  refine ⟨?_, ?_, ?_, ?_⟩
  · intro h
    rw [Guesser.bestGuess, if_pos h]
  · intro i hi
    have := (List.mem_filter.mp hi).2
    exact of_decide_eq_true this
  · intro h hnil
    rw [Guesser.bestGuess, if_neg (by rw [h]; exact Bool.false_ne_true),
      if_pos (by rw [hnil]; rfl)]
  · intro h hnil
    rw [Guesser.bestGuess, if_neg (by rw [h]; exact Bool.false_ne_true),
      if_neg (by simpa [List.isEmpty_iff] using hnil)]

/-- Claim C8 (amended): `best_guess` silently clamps the requested count to
the universe size and never raises: with a non-empty possible bank and a
request for at least one word, it returns at most `min numBest n` results
(`n` the scoring-universe size), and exactly `min numBest n` sorted results
whenever every universe word scores strictly positive (the positive-score
filter and the endgame zeroing can shrink the result below `n`). -/
theorem best_guess_clamp (key : Nat) (full possible : List Word)
    (hardcore : Bool) (attempt maxGuesses numBest : Nat)
    (hposs : possible.isEmpty = false)
    (hwork : (if hardcore then possible else full).length ≠ 0)
    (hnb : 1 ≤ numBest) :
    (Guesser.bestGuess ℝ (Real.logb 2) key full possible hardcore attempt
        maxGuesses numBest).length
      ≤ min numBest (if hardcore then possible else full).length
    ∧ ((∀ x ∈ Scoring.scoreWordBank ℝ (Real.logb 2) full possible hardcore
          attempt maxGuesses, 0 < x) →
      (Guesser.bestGuess ℝ (Real.logb 2) key full possible hardcore attempt
          maxGuesses numBest).length
        = min numBest (if hardcore then possible else full).length) := by
  have hslen : (Scoring.scoreWordBank ℝ (Real.logb 2) full possible hardcore
      attempt maxGuesses).length
      = (if hardcore then possible else full).length := by
    rw [Scoring.scoreWordBank]
    cases hardcore <;> simp
  have hidxlen : (Guesser.bestGuessIndices ℝ
      (Scoring.scoreWordBank ℝ (Real.logb 2) full possible hardcore attempt
        maxGuesses)
      numBest (if hardcore then possible else full).length).length
      ≤ min numBest (if hardcore then possible else full).length := by
    rw [Guesser.bestGuessIndices]
    refine le_trans (List.length_filter_le _ _) ?_
    rw [List.length_take, Guesser.length_argsortDesc, hslen]
    omega
  constructor
  · rw [Guesser.bestGuess, if_neg (by rw [hposs]; exact Bool.false_ne_true)]
    by_cases hid : (Guesser.bestGuessIndices ℝ
        (Scoring.scoreWordBank ℝ (Real.logb 2) full possible hardcore attempt
          maxGuesses)
        numBest (if hardcore then possible else full).length).isEmpty = true
    · rw [if_pos hid]
      simp only [List.length_cons, List.length_nil]
      omega
    · rw [if_neg hid, List.length_map]
      exact hidxlen
  · intro hall
    have hkeep : Guesser.bestGuessIndices ℝ
        (Scoring.scoreWordBank ℝ (Real.logb 2) full possible hardcore attempt
          maxGuesses)
        numBest (if hardcore then possible else full).length
        = ((Guesser.argsortDesc ℝ
            (Scoring.scoreWordBank ℝ (Real.logb 2) full possible hardcore
              attempt maxGuesses)).take
          (min numBest (if hardcore then possible else full).length)) := by
      rw [Guesser.bestGuessIndices]
      refine List.filter_eq_self.mpr ?_
      intro i hi
      have hi' : i ∈ Guesser.argsortDesc ℝ
          (Scoring.scoreWordBank ℝ (Real.logb 2) full possible hardcore
            attempt maxGuesses) := List.mem_of_mem_take hi
      have hlt := Guesser.mem_argsortDesc hi'
      refine decide_eq_true ?_
      have hgd : (Scoring.scoreWordBank ℝ (Real.logb 2) full possible
          hardcore attempt maxGuesses).getD i 0
          = (Scoring.scoreWordBank ℝ (Real.logb 2) full possible hardcore
            attempt maxGuesses)[i] := by
        rw [List.getD_eq_getElem?_getD, List.getElem?_eq_getElem hlt]
        rfl
      rw [hgd]
      exact hall _ (List.getElem_mem hlt)
    have hlen2 : (Guesser.bestGuessIndices ℝ
        (Scoring.scoreWordBank ℝ (Real.logb 2) full possible hardcore attempt
          maxGuesses)
        numBest (if hardcore then possible else full).length).length
        = min numBest (if hardcore then possible else full).length := by
      rw [hkeep, List.length_take, Guesser.length_argsortDesc, hslen]
      omega
    rw [Guesser.bestGuess, if_neg (by rw [hposs]; exact Bool.false_ne_true)]
    have hne : (Guesser.bestGuessIndices ℝ
        (Scoring.scoreWordBank ℝ (Real.logb 2) full possible hardcore attempt
          maxGuesses)
        numBest (if hardcore then possible else full).length).isEmpty
        = false := by
      rw [List.isEmpty_eq_false_iff_exists_mem]
      refine List.exists_mem_of_length_pos ?_
      omega
    rw [if_neg (by rw [hne]; exact Bool.false_ne_true), List.length_map]
    exact hlen2

/-- Counterexample to claim C7 as stated: in `WordScorerEntropy`, the
letter/position pair (0, 1) has frequency 0 over the one-word universe, yet
the clipped green entropy is `H(1e-10) > 0`, not exactly 0. -/
theorem clipped_entropy_not_zero_counterexample :
    Scoring.charFreq [[0, 1, 2, 3, 4]] 0 1 = 0
    ∧ Scoring.greenEntropy ℝ (Real.logb 2) [[0, 1, 2, 3, 4]] 0 1 ≠ 0 := by
  refine ⟨by decide, ?_⟩
  have hf : Scoring.charFreq [[0, 1, 2, 3, 4]] 0 1 = 0 := by decide
  have hl : ([[0, 1, 2, 3, 4]] : List Word).length = 1 := rfl
  have hq : ((0 : Nat) : ℝ) / ((1 : Nat) : ℝ) = 0 := by norm_num
  have hp : Scoring.pGreen ℝ [[0, 1, 2, 3, 4]] 0 1 = Scoring.eps ℝ := by
    rw [Scoring.pGreen, hf, hl, hq, RealFacts.clip_zero]
  rw [Scoring.greenEntropy, hp]
  exact ne_of_gt RealFacts.binEntropy_eps_pos

namespace RealFacts

theorem hE_pos15 :
    (0 : ℝ) < 15 * Scoring.binEntropy ℝ (Real.logb 2) (Scoring.eps ℝ) := by
  have := binEntropy_eps_pos
  linarith

theorem scoreWordBank_two :
    Scoring.scoreWordBank ℝ (Real.logb 2)
        [[0, 1, 2, 3, 4], [0, 1, 2, 3, 5]] [[0, 1, 2, 3, 4]] false 1 6
      = [15 * Scoring.binEntropy ℝ (Real.logb 2) (Scoring.eps ℝ), 0] := by
  rw [Scoring.scoreWordBank]
  have hif : (if (false : Bool) then ([[0, 1, 2, 3, 4]] : List Word)
      else [[0, 1, 2, 3, 4], [0, 1, 2, 3, 5]])
      = [[0, 1, 2, 3, 4], [0, 1, 2, 3, 5]] := rfl
  rw [hif, List.map_cons, List.map_cons, List.map_nil, scoreOne_abcde,
    scoreOne_abcdf]

theorem argsort_two :
    Guesser.argsortDesc ℝ
        [15 * Scoring.binEntropy ℝ (Real.logb 2) (Scoring.eps ℝ), 0]
      = [0, 1] := by
  rw [Guesser.argsortDesc]
  have henum : ([15 * Scoring.binEntropy ℝ (Real.logb 2) (Scoring.eps ℝ),
      (0 : ℝ)] : List ℝ).enum
      = [(0, 15 * Scoring.binEntropy ℝ (Real.logb 2) (Scoring.eps ℝ)),
        (1, 0)] := rfl
  rw [henum]
  simp only [List.insertionSort, List.orderedInsert]
  rw [if_pos (by simpa using le_of_lt hE_pos15)]
  rfl

theorem bestGuessIndices_two :
    Guesser.bestGuessIndices ℝ
        [15 * Scoring.binEntropy ℝ (Real.logb 2) (Scoring.eps ℝ), 0] 100 2
      = [0] := by
  rw [Guesser.bestGuessIndices, argsort_two]
  have hmin : min 100 2 = 2 := by norm_num
  rw [hmin]
  have htake : ([0, 1] : List Nat).take 2 = [0, 1] := rfl
  rw [htake]
  have h0 : decide ((0 : ℝ)
      < 15 * Scoring.binEntropy ℝ (Real.logb 2) (Scoring.eps ℝ)) = true :=
    decide_eq_true hE_pos15
  have h1 : decide ((0 : ℝ) < 0) = false := decide_eq_false (lt_irrefl 0)
  simp only [List.filter_cons, List.filter_nil, List.getD_cons_zero,
    List.getD_cons_succ, h0, h1, if_true, if_false]
  simp

end RealFacts

/-- Counterexample to claim C8 as stated: with the two-word scoring universe
(the full bank, non-hardcore mode) and one remaining viable word, requesting
`num_best = 100` returns a single word, not `min 100 2 = 2` sorted results:
the endgame zeroing and the positive-score filter drop the non-viable word. -/
theorem selector_clamp_counterexample :
    ([[0, 1, 2, 3, 4], [0, 1, 2, 3, 5]] : List Word).length = 2
    ∧ (Guesser.bestGuess ℝ (Real.logb 2) 97
          [[0, 1, 2, 3, 4], [0, 1, 2, 3, 5]] [[0, 1, 2, 3, 4]] false 1 6
          100).length = 1
    ∧ (Guesser.bestGuess ℝ (Real.logb 2) 97
          [[0, 1, 2, 3, 4], [0, 1, 2, 3, 5]] [[0, 1, 2, 3, 4]] false 1 6
          100).length
        ≠ min 100
            ([[0, 1, 2, 3, 4], [0, 1, 2, 3, 5]] : List Word).length := by
  have hif : (if (false : Bool) then ([[0, 1, 2, 3, 4]] : List Word)
      else [[0, 1, 2, 3, 4], [0, 1, 2, 3, 5]]).length = 2 := rfl
  have hbg : Guesser.bestGuess ℝ (Real.logb 2) 97
      [[0, 1, 2, 3, 4], [0, 1, 2, 3, 5]] [[0, 1, 2, 3, 4]] false 1 6 100
      = [[97, 98, 99, 100, 101]] := by
    rw [Guesser.bestGuess,
      if_neg (by simp),
      RealFacts.scoreWordBank_two, hif, RealFacts.bestGuessIndices_two,
      if_neg (by simp)]
    rfl
  refine ⟨rfl, ?_, ?_⟩
  · rw [hbg]
    rfl
  · rw [hbg]
    norm_num

/-- Witness for C8 (amended) on a one-word bank in hardcore mode with
`num_best = 3`. -/
theorem best_guess_clamp_witness :
    (Guesser.bestGuess ℝ (Real.logb 2) 97 [[0, 1, 2, 3, 4]]
        [[0, 1, 2, 3, 4]] true 1 6 3).length
      ≤ min 3 (if (true : Bool) then ([[0, 1, 2, 3, 4]] : List Word)
          else [[0, 1, 2, 3, 4]]).length
    ∧ ((∀ x ∈ Scoring.scoreWordBank ℝ (Real.logb 2) [[0, 1, 2, 3, 4]]
          [[0, 1, 2, 3, 4]] true 1 6, 0 < x) →
      (Guesser.bestGuess ℝ (Real.logb 2) 97 [[0, 1, 2, 3, 4]]
          [[0, 1, 2, 3, 4]] true 1 6 3).length
        = min 3 (if (true : Bool) then ([[0, 1, 2, 3, 4]] : List Word)
            else [[0, 1, 2, 3, 4]]).length) :=
  best_guess_clamp 97 [[0, 1, 2, 3, 4]] [[0, 1, 2, 3, 4]] true 1 6 3
    rfl (by decide) (by decide)

/-- Witness for C9 at the two-word universe of the clamping counterexample. -/
theorem best_guess_positive_filter_witness :
    (([[0, 1, 2, 3, 4]] : List Word).isEmpty = true →
      Guesser.bestGuess ℝ (Real.logb 2) 97
          [[0, 1, 2, 3, 4], [0, 1, 2, 3, 5]] [[0, 1, 2, 3, 4]] false 1 6 100
        = [Guesser.noViableGuesses])
    ∧ (∀ i ∈ Guesser.bestGuessIndices ℝ
          (Scoring.scoreWordBank ℝ (Real.logb 2)
            [[0, 1, 2, 3, 4], [0, 1, 2, 3, 5]] [[0, 1, 2, 3, 4]] false 1 6)
          100 (if (false : Bool) then ([[0, 1, 2, 3, 4]] : List Word)
            else [[0, 1, 2, 3, 4], [0, 1, 2, 3, 5]]).length,
        0 < (Scoring.scoreWordBank ℝ (Real.logb 2)
            [[0, 1, 2, 3, 4], [0, 1, 2, 3, 5]] [[0, 1, 2, 3, 4]] false 1
            6).getD i 0)
    ∧ (([[0, 1, 2, 3, 4]] : List Word).isEmpty = false →
      Guesser.bestGuessIndices ℝ
          (Scoring.scoreWordBank ℝ (Real.logb 2)
            [[0, 1, 2, 3, 4], [0, 1, 2, 3, 5]] [[0, 1, 2, 3, 4]] false 1 6)
          100 (if (false : Bool) then ([[0, 1, 2, 3, 4]] : List Word)
            else [[0, 1, 2, 3, 4], [0, 1, 2, 3, 5]]).length = [] →
      Guesser.bestGuess ℝ (Real.logb 2) 97
          [[0, 1, 2, 3, 4], [0, 1, 2, 3, 5]] [[0, 1, 2, 3, 4]] false 1 6 100
        = [Guesser.noViableGuesses])
    ∧ (([[0, 1, 2, 3, 4]] : List Word).isEmpty = false →
      Guesser.bestGuessIndices ℝ
          (Scoring.scoreWordBank ℝ (Real.logb 2)
            [[0, 1, 2, 3, 4], [0, 1, 2, 3, 5]] [[0, 1, 2, 3, 4]] false 1 6)
          100 (if (false : Bool) then ([[0, 1, 2, 3, 4]] : List Word)
            else [[0, 1, 2, 3, 4], [0, 1, 2, 3, 5]]).length ≠ [] →
      Guesser.bestGuess ℝ (Real.logb 2) 97
          [[0, 1, 2, 3, 4], [0, 1, 2, 3, 5]] [[0, 1, 2, 3, 4]] false 1 6 100
        = (Guesser.bestGuessIndices ℝ
            (Scoring.scoreWordBank ℝ (Real.logb 2)
              [[0, 1, 2, 3, 4], [0, 1, 2, 3, 5]] [[0, 1, 2, 3, 4]] false 1 6)
            100 (if (false : Bool) then ([[0, 1, 2, 3, 4]] : List Word)
              else [[0, 1, 2, 3, 4], [0, 1, 2, 3, 5]]).length).map
          (fun i => ((if (false : Bool) then ([[0, 1, 2, 3, 4]] : List Word)
              else [[0, 1, 2, 3, 4], [0, 1, 2, 3, 5]]).getD i []).map
            (fun n => n + 97))) :=
  best_guess_positive_filter 97 [[0, 1, 2, 3, 4], [0, 1, 2, 3, 5]]
    [[0, 1, 2, 3, 4]] false 1 6 100
